import Mathlib

/-!
Shallow embedding of the redjubjub FROST / RedDSA core (frost.rs, batch.rs,
messages/validate.rs) and proofs about it.

The Jubjub scalar field and curve group are external dependencies of the
repository (the specification lists the curve arithmetic, encodings and the
BLAKE2b hash as out-of-scope collaborators consumed through interfaces), so
the embedding is parametric:

* `F` models the scalar field `jubjub::Fr` (a `Field` with decidable
  equality);
* `P` models curve points in the prime-order subgroup, with `Module F P`
  capturing scalar multiplication `ExtendedPoint * Fr` and `B : P` the
  SpendAuth basepoint;
* byte strings are modelled as `List ℕ`;
* `hstar : List ℕ → F` models the personalized BLAKE2b-512 hash-to-scalar
  `HStar` (the hash state concatenates all `update` inputs);
* `encP`/`encF` model the canonical 32-byte point and scalar encodings,
  `decP`/`decF` the corresponding decoders, and `val : F → ℕ` the integer
  value of a scalar's canonical encoding.

Theorems state the properties for every such model; concrete witnesses
instantiate `F`, `P` with `ℚ` or `ZMod 101` and discharge the interface
hypotheses there.
-/

set_option linter.unusedSectionVars false

namespace RedJubjub

variable {F : Type} [Field F] [DecidableEq F]
variable {P : Type} [AddCommGroup P] [Module F P] [DecidableEq P]

deriving instance DecidableEq for Except

instance : Fact (Nat.Prime 101) := ⟨by norm_num⟩

/-- Model of `frost::Share`: a receiver index (`u32`, modelled as `ℕ`), the
secret value `f(i)` and the public commitment list (the `Secret` and
`Commitment` newtype wrappers are collapsed). -/
structure Share (F : Type) (P : Type) where
  receiver_index : ℕ
  value : F
  commitment : List P
deriving DecidableEq

/-- Translation of `verify_share` (frost.rs): recompute
`Σ_k x^k • C_k` with the same fold as the source and compare with
`value • B`. -/
def verify_share (B : P) (share : Share F P) : Except String Unit :=
  let f_result : P := share.value • B
  let x : F := (share.receiver_index : F)
  let result :=
    (share.commitment.foldl
      (fun acc comm_i => (acc.1 * x, acc.2 + acc.1 • comm_i)) ((1 : F), (0 : P))).2
  if f_result = result then Except.ok () else Except.error "Share is invalid."

/-- The Horner evaluation loop in `generate_shares` (frost.rs): iterate the
coefficients from the highest index down, then add the secret constant
term. -/
def polyEval (secret : F) (coefficients : List F) (x : F) : F :=
  coefficients.reverse.foldl (fun value c => (value + c) * x) 0 + secret

/-- Translation of `generate_shares` (frost.rs).  The random coefficients
drawn from the rng are passed in as the list `coefficients` (the caller is
expected to supply `threshold - 1` of them, mirroring the sampling loop). -/
def generate_shares (B : P) (secret : F) (numshares threshold : ℕ)
    (coefficients : List F) : Except String (List (Share F P)) :=
  if threshold < 1 then Except.error "Threshold cannot be 0"
  else if numshares < 1 then Except.error "Number of shares cannot be 0"
  else if numshares < threshold then Except.error "Threshold cannot exceed numshares"
  else
    let commitment : List P := secret • B :: coefficients.map (fun c => c • B)
    Except.ok ((List.range numshares).map (fun k =>
      { receiver_index := k + 1
        value := polyEval secret coefficients ((k + 1 : ℕ) : F)
        commitment := commitment }))

/-- Plain polynomial evaluation `Σ_k cs_k * x^k`, used to reason about the
two loops above. -/
def evalPow (cs : List F) (x : F) : F :=
  cs.foldr (fun c r => c + x * r) 0

/-- Model of `frost::SigningCommitments`: a participant index with the two
nonce commitment points `D = d•B` and `E = e•B`. -/
structure SigningCommitments (P : Type) where
  index : ℕ
  «hiding» : P
  binding : P
deriving DecidableEq

/-- Model of `frost::SigningPackage`: the message and the sequence of signing
commitments distributed by the coordinator. -/
structure SigningPackage (P : Type) where
  message : List ℕ
  signing_commitments : List (SigningCommitments P)
deriving DecidableEq

/-- Model of the pre-reddsa `VerificationKey`: the decompressed point
together with its cached canonical encoding (`bytes.bytes` in the source). -/
structure VKey (P : Type) where
  point : P
  bytes : List ℕ
deriving DecidableEq

/-- Model of `frost::SharePackage` (dealer output for one participant). -/
structure SharePackage (F : Type) (P : Type) where
  index : ℕ
  share : Share F P
  public : P
  group_public : VKey P

/-- Model of `frost::PublicKeyPackage`; the `signer_pubkeys` HashMap is
modelled as a partial lookup function. -/
structure PublicKeyPackage (P : Type) where
  signer_pubkeys : ℕ → Option P
  group_public : VKey P

/-- Model of `frost::SignatureShare`. -/
structure SignatureShare (F : Type) where
  index : ℕ
  signature : F
deriving DecidableEq

/-- Model of `Signature<SpendAuth>`: the two 32-byte halves. -/
structure Sig where
  r_bytes : List ℕ
  s_bytes : List ℕ
deriving DecidableEq

/-- Translation of `VerificationKey::from(&Scalar)`: the point `s•B` with its
cached encoding. -/
def vkeyFromScalar (B : P) (encP : P → List ℕ) (s : F) : VKey P :=
  { point := s • B, bytes := encP (s • B) }

/-- Translation of `keygen_with_dealer` (frost.rs).  The rng-sampled master
secret and polynomial coefficients are passed in; the `signer_pubkeys`
HashMap insertions become a lookup over the generated share list. -/
def keygen_with_dealer (B : P) (encP : P → List ℕ) (secret : F)
    (num_signers threshold : ℕ) (coefficients : List F) :
    Except String (List (SharePackage F P) × PublicKeyPackage P) :=
  match generate_shares B secret num_signers threshold coefficients with
  | Except.error e => Except.error e
  | Except.ok shares =>
    let group_public := vkeyFromScalar B encP secret
    Except.ok
      (shares.map (fun share =>
        { index := share.receiver_index
          share := share
          public := share.value • B
          group_public := group_public }),
       { signer_pubkeys := fun i =>
           (shares.find? (fun s => s.receiver_index == i)).map (fun s => s.value • B)
         group_public := group_public })

/-- The ASCII bytes of the string literal `"FROST_rho"`. -/
def frostRhoLabel : List ℕ := [70, 82, 79, 83, 84, 95, 114, 104, 111]

/-- Big-endian byte decomposition of a `u32` (`index.to_be_bytes()`). -/
def beBytes32 (k : ℕ) : List ℕ :=
  [k / 16777216 % 256, k / 65536 % 256, k / 256 % 256, k % 256]

/-- The byte stream fed to the hasher in `gen_rho_i` (frost.rs): the domain
label, the participant index, the hashed message, then each commitment in
the order stored in the package (index, hiding bytes, binding bytes). -/
def rhoPreimage (hstar : List ℕ → F) (encP : P → List ℕ) (encF : F → List ℕ)
    (index : ℕ) (signing_package : SigningPackage P) : List ℕ :=
  frostRhoLabel ++ beBytes32 index ++ encF (hstar signing_package.message)
    ++ signing_package.signing_commitments.foldl
        (fun acc item => acc ++ beBytes32 item.index ++ encP item.hiding ++ encP item.binding)
        []

/-- Translation of `gen_rho_i` (frost.rs). -/
def gen_rho_i (hstar : List ℕ → F) (encP : P → List ℕ) (encF : F → List ℕ)
    (index : ℕ) (signing_package : SigningPackage P) : F :=
  hstar (rhoPreimage hstar encP encF index signing_package)

/-- The `bindings` HashMap built at the start of `sign` and `aggregate`: it
maps each index occurring in the package's commitments to its binding
factor.  Since the inserted value is a function of the key alone, repeated
inserts are immaterial and the map is a lookup function. -/
def mkBindings (hstar : List ℕ → F) (encP : P → List ℕ) (encF : F → List ℕ)
    (signing_package : SigningPackage P) : ℕ → Option F :=
  fun i =>
    if signing_package.signing_commitments.any (fun c => c.index == i) then
      some (gen_rho_i hstar encP encF i signing_package)
    else none

/-- Translation of `gen_group_commitment` (frost.rs). -/
def gen_group_commitment (signing_package : SigningPackage P)
    (bindings : ℕ → Option F) : Except String P :=
  signing_package.signing_commitments.foldlM
    (fun accumulator commitment =>
      match bindings commitment.index with
      | none => Except.error "No matching commitment index"
      | some rho_i =>
        Except.ok (accumulator + (commitment.hiding + rho_i • commitment.binding)))
    (0 : P)

/-- Translation of `gen_challenge` (frost.rs): hash of the group commitment
bytes, the group public key bytes and the message. -/
def gen_challenge (hstar : List ℕ → F) (encP : P → List ℕ)
    (signing_package : SigningPackage P) (group_commitment : P)
    (group_public : VKey P) : F :=
  hstar (encP group_commitment ++ group_public.bytes ++ signing_package.message)

/-- Translation of `gen_lagrange_coeff` (frost.rs): fold over the package's
commitments, skipping the signer's own index, then check the denominator and
invert. -/
def gen_lagrange_coeff (signer_index : ℕ) (signing_package : SigningPackage P) :
    Except String F :=
  let nd := signing_package.signing_commitments.foldl
    (fun (nd : F × F) commitment =>
      if commitment.index = signer_index then nd
      else (nd.1 * ((commitment.index : ℕ) : F),
            nd.2 * (((commitment.index : ℕ) : F) - ((signer_index : ℕ) : F))))
    (1, 1)
  if nd.2 = 0 then Except.error "Duplicate shares provided"
  else Except.ok (nd.1 * nd.2⁻¹)

/-- Translation of `frost::sign`.  The participant's nonces are the pair
`(hiding, binding)`; the `bindings` HashMap of the source is `mkBindings`
and the `challenge` local is inlined at its single use site. -/
def sign (hstar : List ℕ → F) (encP : P → List ℕ) (encF : F → List ℕ)
    (signing_package : SigningPackage P) (participant_nonces : F × F)
    (share_package : SharePackage F P) : Except String (SignatureShare F) :=
  match gen_lagrange_coeff share_package.index signing_package with
  | Except.error e => Except.error e
  | Except.ok lambda_i =>
    match gen_group_commitment signing_package
        (mkBindings hstar encP encF signing_package) with
    | Except.error e => Except.error e
    | Except.ok group_commitment =>
      match mkBindings hstar encP encF signing_package share_package.index with
      | none => Except.error "No matching binding!"
      | some participant_rho_i =>
        Except.ok
          { index := share_package.index
            signature := participant_nonces.1 + participant_nonces.2 * participant_rho_i
              + lambda_i * share_package.share.value
                * gen_challenge hstar encP signing_package group_commitment
                    share_package.group_public }

/-- Translation of `SignatureShare::check_is_valid` (frost.rs). -/
def check_is_valid (B : P) (self : SignatureShare F) (pubkey : P) (lambda_i : F)
    (commitment : P) (challenge : F) : Except String Unit :=
  if self.signature • B = commitment + lambda_i • challenge • pubkey then Except.ok ()
  else Except.error "Invalid signature share"

/-- Translation of `frost::aggregate`.  The `bindings` HashMap is
`mkBindings` and the `challenge` local is inlined (it is pure, so the value
is unchanged); the two infallible HashMap index operations of the source
(`signer_pubkeys[..]` and `bindings[..]`) are modelled as error branches,
both unreachable on dealer-generated inputs. -/
def aggregate (B : P) (hstar : List ℕ → F) (encP : P → List ℕ) (encF : F → List ℕ)
    (signing_package : SigningPackage P) (signing_shares : List (SignatureShare F))
    (pubkeys : PublicKeyPackage P) : Except String Sig :=
  match gen_group_commitment signing_package
      (mkBindings hstar encP encF signing_package) with
  | Except.error e => Except.error e
  | Except.ok group_commitment =>
    match signing_shares.forM (fun signing_share =>
      match pubkeys.signer_pubkeys signing_share.index with
      | none => Except.error "missing signer pubkey"
      | some signer_pubkey =>
        match gen_lagrange_coeff signing_share.index signing_package with
        | Except.error e => Except.error e
        | Except.ok lambda_i =>
          match signing_package.signing_commitments.find?
              (fun (c : SigningCommitments P) => c.index == signing_share.index) with
          | none => Except.error "No matching signing commitment for signer"
          | some signer_commitment =>
            match mkBindings hstar encP encF signing_package signing_share.index with
            | none => Except.error "missing binding"
            | some rho =>
              check_is_valid B signing_share signer_pubkey lambda_i
                (signer_commitment.hiding + rho • signer_commitment.binding)
                (gen_challenge hstar encP signing_package group_commitment
                  pubkeys.group_public)) with
    | Except.error e => Except.error e
    | Except.ok _ =>
      Except.ok
        { r_bytes := encP group_commitment
          s_bytes := encF (signing_shares.foldl
            (fun (acc : F) (signature_share : SignatureShare F) =>
              acc + signature_share.signature) 0) }

/-- Modelled from the spec: single-signature verification (`§4.D Verify`).
The implementation behind `VerificationKey::verify` lives in the external
`reddsa` crate in this tree, so the three spec steps are used: decode `R`
and `s` (failures give `InvalidSignature`), recompute the challenge from
`R_bytes ‖ vk_bytes ‖ msg`, and check that the cofactor multiple of
`−s·P + R + c·vk` is the identity. -/
def verify (B : P) (hstar : List ℕ → F) (decP : List ℕ → Option P)
    (decF : List ℕ → Option F) (vk : VKey P) (msg : List ℕ) (sig : Sig) :
    Except String Unit :=
  match decP sig.r_bytes with
  | none => Except.error "InvalidSignature"
  | some r =>
    match decF sig.s_bytes with
    | none => Except.error "InvalidSignature"
    | some s =>
      if (8 : ℕ) • (-(s • B) + r
          + hstar (sig.r_bytes ++ vk.bytes ++ msg) • vk.point) = 0 then Except.ok ()
      else Except.error "InvalidSignature"

/-- Default share used to model the panic-free `shares[j]` indexing of the
source (all accesses are in bounds there). -/
def defaultShare : Share F P := { receiver_index := 0, value := 0, commitment := [] }

/-- The numerator/denominator pair accumulated by the inner `j`-loop of
`reconstruct_secret` (test module of frost.rs) for position `i`. -/
def lagrangePair (shares : List (Share F P)) (i : ℕ) : F × F :=
  (List.range shares.length).foldl
    (fun (nd : F × F) j =>
      if j = i then nd
      else
        (nd.1 * (((shares.getD j defaultShare).receiver_index : ℕ) : F),
         nd.2 * ((((shares.getD j defaultShare).receiver_index : ℕ) : F)
           - (((shares.getD i defaultShare).receiver_index : ℕ) : F))))
    (1, 1)

/-- One iteration of the outer `i`-loop of `reconstruct_secret`: check the
denominator and append the Lagrange coefficient. -/
def lagrangeStep (shares : List (Share F P)) (lagrange_coeffs : List F) (i : ℕ) :
    Except String (List F) :=
  let nd := lagrangePair shares i
  if nd.2 = 0 then Except.error "Duplicate shares provided"
  else Except.ok (lagrange_coeffs ++ [nd.1 * nd.2⁻¹])

/-- Translation of `reconstruct_secret` (test module of frost.rs): compute a
Lagrange coefficient for every position, then sum the weighted share
values. -/
def reconstruct_secret (shares : List (Share F P)) : Except String F :=
  let numshares := shares.length
  if numshares < 1 then Except.error "No shares provided"
  else
    match (List.range numshares).foldlM (lagrangeStep shares) ([] : List F) with
    | Except.error e => Except.error e
    | Except.ok lagrange_coeffs =>
      Except.ok ((List.range numshares).foldl
        (fun secret i =>
          secret + lagrange_coeffs.getD i 0 * (shares.getD i defaultShare).value) 0)

/-- Model of `messages::ParticipantId`: a signer id (`u64`, modelled as `ℕ`),
the dealer, or the aggregator. -/
inductive ParticipantId
  | Signer (id : ℕ)
  | Dealer
  | Aggregator
deriving DecidableEq

/-- The derived `PartialOrd` on `ParticipantId`: variants compare by
declaration order (`Signer < Dealer < Aggregator`) and `Signer` payloads
compare numerically.  This is the `<=` used by `messages/validate.rs`. -/
def pidLe : ParticipantId → ParticipantId → Bool
  | ParticipantId.Signer a, ParticipantId.Signer b => Nat.ble a b
  | ParticipantId.Signer _, ParticipantId.Dealer => true
  | ParticipantId.Signer _, ParticipantId.Aggregator => true
  | ParticipantId.Dealer, ParticipantId.Signer _ => false
  | ParticipantId.Dealer, ParticipantId.Dealer => true
  | ParticipantId.Dealer, ParticipantId.Aggregator => true
  | ParticipantId.Aggregator, ParticipantId.Aggregator => true
  | ParticipantId.Aggregator, _ => false

/-- Constant from `messages/constants.rs`: version 0. -/
def BASIC_FROST_SERIALIZATION : ℕ := 0

/-- Constant from `messages/constants.rs`: `u8::MAX - 2`. -/
def MAX_SIGNER_PARTICIPANT_ID : ℕ := 253

/-- Constant from `messages/constants.rs`: `MAX_SIGNER_PARTICIPANT_ID + 1`. -/
def MAX_SIGNERS : ℕ := 254

/-- Constant from `messages/constants.rs` (named
`ZCASH_MAX_PROTOCOL_MESSAGE_LEN` there, imported as
`MAX_PROTOCOL_MESSAGE_LEN` by validate.rs): 2 MiB. -/
def MAX_PROTOCOL_MESSAGE_LEN : ℕ := 2 * 1024 * 1024

/-- Constant from `messages/constants.rs`. -/
def MIN_SIGNERS : ℕ := 2

/-- Model of the wire `SharePackage` payload (messages.rs); the 32-byte
encodings are byte lists. -/
structure MsgSharePackage where
  group_public : List ℕ
  secret_share : List ℕ
  share_commitment : List (List ℕ)
deriving DecidableEq

/-- Model of the wire `SigningCommitments` payload (messages.rs). -/
structure MsgSigningCommitments where
  «hiding» : List ℕ
  binding : List ℕ
deriving DecidableEq

/-- Model of the wire `SigningPackage` payload (messages.rs); the
`HashMap<ParticipantId, SigningCommitments>` is an association list with
structurally unique keys. -/
structure MsgSigningPackage where
  signing_commitments : List (ParticipantId × MsgSigningCommitments)
  message : List ℕ
deriving DecidableEq

/-- Model of the wire `SignatureShare` payload (messages.rs). -/
structure MsgSignatureShare where
  signature : List ℕ
deriving DecidableEq

/-- Model of the wire `AggregateSignature` payload (messages.rs). -/
structure MsgAggregateSignature where
  group_commitment : List ℕ
  schnorr_signature : List ℕ
deriving DecidableEq

/-- Model of `messages::Payload`. -/
inductive MsgPayload
  | SharePackage (p : MsgSharePackage)
  | SigningCommitments (p : MsgSigningCommitments)
  | SigningPackage (p : MsgSigningPackage)
  | SignatureShare (p : MsgSignatureShare)
  | AggregateSignature (p : MsgAggregateSignature)
deriving DecidableEq

/-- Model of `messages::Header`. -/
structure MsgHeader where
  version : ℕ
  sender : ParticipantId
  receiver : ParticipantId
deriving DecidableEq

/-- Model of `messages::Message`. -/
structure Msg where
  header : MsgHeader
  payload : MsgPayload
deriving DecidableEq

/-- Model of `messages::validate::MsgErr` (the spelling
`ReceiverMustBeAggergator` is the source's). -/
inductive MsgErr
  | WrongVersion
  | SameSenderAndReceiver
  | SenderMustBeDealer
  | ReceiverMustBeSigner
  | SenderMustBeSigner
  | ReceiverMustBeAggergator
  | SenderMustBeAggregator
  | MsgTooBig
deriving DecidableEq

/-- Translation of `impl Validate for Message` (messages/validate.rs),
comparison directions exactly as in the source. -/
def validateMessage (m : Msg) : Except MsgErr Unit :=
  match m.payload with
  | MsgPayload.SharePackage _ =>
    if m.header.sender ≠ ParticipantId.Dealer then Except.error MsgErr.SenderMustBeDealer
    else if pidLe m.header.receiver (ParticipantId.Signer MAX_SIGNER_PARTICIPANT_ID) then
      Except.error MsgErr.ReceiverMustBeSigner
    else Except.ok ()
  | MsgPayload.SigningCommitments _ =>
    if pidLe m.header.sender (ParticipantId.Signer MAX_SIGNER_PARTICIPANT_ID) then
      Except.error MsgErr.SenderMustBeSigner
    else if m.header.receiver ≠ ParticipantId.Aggregator then
      Except.error MsgErr.ReceiverMustBeAggergator
    else Except.ok ()
  | MsgPayload.SigningPackage _ =>
    if m.header.sender ≠ ParticipantId.Aggregator then Except.error MsgErr.SenderMustBeAggregator
    else if pidLe m.header.receiver (ParticipantId.Signer MAX_SIGNER_PARTICIPANT_ID) then
      Except.error MsgErr.ReceiverMustBeSigner
    else Except.ok ()
  | MsgPayload.SignatureShare _ =>
    if pidLe m.header.sender (ParticipantId.Signer MAX_SIGNER_PARTICIPANT_ID) then
      Except.error MsgErr.SenderMustBeSigner
    else if m.header.receiver ≠ ParticipantId.Aggregator then
      Except.error MsgErr.ReceiverMustBeAggergator
    else Except.ok ()
  | MsgPayload.AggregateSignature _ =>
    if m.header.sender ≠ ParticipantId.Aggregator then Except.error MsgErr.SenderMustBeAggregator
    else if pidLe m.header.receiver (ParticipantId.Signer MAX_SIGNER_PARTICIPANT_ID) then
      Except.error MsgErr.ReceiverMustBeSigner
    else Except.ok ()

/-- Translation of `impl Validate for Header` (messages/validate.rs). -/
def validateHeader (h : MsgHeader) : Except MsgErr Unit :=
  if h.version ≠ BASIC_FROST_SERIALIZATION then Except.error MsgErr.WrongVersion
  else if h.sender = h.receiver then Except.error MsgErr.SameSenderAndReceiver
  else Except.ok ()

/-- Translation of `impl Validate for Payload` (messages/validate.rs): only a
`SigningPackage` payload is inspected, and only its message length. -/
def validatePayload (p : MsgPayload) : Except MsgErr Unit :=
  match p with
  | MsgPayload.SharePackage _ => Except.ok ()
  | MsgPayload.SigningCommitments _ => Except.ok ()
  | MsgPayload.SigningPackage signing_package =>
    if signing_package.message.length > MAX_PROTOCOL_MESSAGE_LEN then
      Except.error MsgErr.MsgTooBig
    else Except.ok ()
  | MsgPayload.SignatureShare _ => Except.ok ()
  | MsgPayload.AggregateSignature _ => Except.ok ()


/-- The secret polynomial `f(x) = secret + Σ_k coeffs_k x^(k+1)` of
`generate_shares`, as a `Polynomial`, used to connect the Horner loop with
Mathlib's Lagrange interpolation. -/
noncomputable def fPoly (secret : F) (coeffs : List F) : Polynomial F :=
  Polynomial.C secret + ∑ k ∈ Finset.range coeffs.length,
    Polynomial.C (coeffs.getD k 0) * Polynomial.X ^ (k + 1)

/-- The receiver index of the share at position `i` (`shares[i].receiver_index`
in the source's `reconstruct_secret`). -/
def ridxAt (shares : List (Share F P)) (i : ℕ) : ℕ :=
  (shares.getD i defaultShare).receiver_index

/-- Concrete scalar/point encoder over `ZMod 101`, used by witnesses. -/
def zmodEnc (x : ZMod 101) : List ℕ := [x.val]

/-- Concrete decoder matching `zmodEnc`, used by witnesses. -/
def zmodDec (l : List ℕ) : Option (ZMod 101) :=
  match l with
  | [a] => some ((a : ℕ) : ZMod 101)
  | _ => none

/-- Concrete stand-in for the hash-to-scalar function, used by witnesses. -/
def zmodHash (l : List ℕ) : ZMod 101 :=
  ((l.foldl (fun a b => a * 3 + b + 1) 0 : ℕ) : ZMod 101)

/-- Witness data: the three dealer shares of `f(x) = 3 + 5x` over
`ZMod 101` with basepoint 1. -/
def wShares : List (Share (ZMod 101) (ZMod 101)) :=
  [{ receiver_index := 1, value := 8, commitment := [3, 5] },
   { receiver_index := 2, value := 13, commitment := [3, 5] },
   { receiver_index := 3, value := 18, commitment := [3, 5] }]

/-- Witness data: the share packages produced by dealer keygen on
`wShares`. -/
def wSps : List (SharePackage (ZMod 101) (ZMod 101)) :=
  wShares.map (fun share =>
    { index := share.receiver_index
      share := share
      public := share.value • (1 : ZMod 101)
      group_public := { point := 3, bytes := [3] } })

/-- Witness data: the public key package produced by dealer keygen on
`wShares`. -/
def wPkp : PublicKeyPackage (ZMod 101) :=
  { signer_pubkeys := fun i =>
      (wShares.find? (fun s => s.receiver_index == i)).map
        (fun s => s.value • (1 : ZMod 101))
    group_public := { point := 3, bytes := [3] } }

/-- The per-commitment byte chunk appended inside the `gen_rho_i` fold
(frost.rs): index bytes, hiding bytes, binding bytes. -/
def commitChunk (encP : P → List ℕ) (item : SigningCommitments P) : List ℕ :=
  beBytes32 item.index ++ encP item.hiding ++ encP item.binding

/-- Concrete 32-byte point encoder over `ZMod 101`, used by witnesses that
need the fixed-width encoding hypothesis. -/
def zmodEnc32 (x : ZMod 101) : List ℕ := x.val :: List.replicate 31 0

/-- Witness data: two signing commitments with distinct indices. -/
def wCmA : SigningCommitments (ZMod 101) := { index := 1, «hiding» := 4, binding := 5 }

/-- Witness data: two signing commitments with distinct indices. -/
def wCmB : SigningCommitments (ZMod 101) := { index := 2, «hiding» := 6, binding := 7 }

/-- Witness data: a signing package holding `wCmA` then `wCmB`. -/
def wPkgA : SigningPackage (ZMod 101) := { message := [42], signing_commitments := [wCmA, wCmB] }

/-- Witness data: the same signing package with the commitments swapped. -/
def wPkgB : SigningPackage (ZMod 101) := { message := [42], signing_commitments := [wCmB, wCmA] }

/-- Translation of the `while pos < 256` loop of `non_adjacent_form`
(batch.rs) at window width `w = 5` (`width = 32`, `window_mask = 31`).
The limb arithmetic on `x_u64[0..5]` (with the fifth limb zero) computes
`bit_buf & window_mask = (n >> pos) % 32` for the scalar value
`n < 2^256`, which is embedded directly.  Digits are recorded sparsely as
`(position, digit)` pairs; the `naf` array holds zero elsewhere.  `pos`
grows by at least 1 per iteration, so 256 units of fuel run the loop to
completion. -/
def nafRec (n : ℕ) : ℕ → ℕ → ℕ → List (ℕ × ℤ)
  | 0, _, _ => []
  | fuel + 1, pos, carry =>
      if pos < 256 then
        if (carry + n / 2 ^ pos % 32) % 2 = 0 then
          nafRec n fuel (pos + 1) carry
        else if carry + n / 2 ^ pos % 32 < 16 then
          (pos, ((carry + n / 2 ^ pos % 32 : ℕ) : ℤ)) :: nafRec n fuel (pos + 5) 0
        else
          (pos, ((carry + n / 2 ^ pos % 32 : ℕ) : ℤ) - 32) :: nafRec n fuel (pos + 5) 1
      else []

/-- `Scalar::non_adjacent_form(5)` (batch.rs) on the canonical integer
value `n` of the scalar: `pos` and `carry` start at 0. -/
def non_adjacent_form (n : ℕ) : List (ℕ × ℤ) := nafRec n 256 0 0

/-- Reading the digit array built by `non_adjacent_form`: `naf[i]` is the
recorded digit at position `i`, and 0 where none was recorded. -/
def nafAt (l : List (ℕ × ℤ)) (i : ℕ) : ℤ :=
  ((l.find? (fun p => p.1 == i)).map (fun p => p.2)).getD 0

/-- The row-filling loop of `LookupTable5::from` (batch.rs):
`Ai[i + 1] = A2 + Ai[i]` starting from `A`. -/
def lookupRow (A2 : P) (x : P) : ℕ → List P
  | 0 => [x]
  | k + 1 => x :: lookupRow A2 (A2 + x) k

/-- `LookupTable5::from(&A)` (batch.rs): the odd multiples
`[A, 3A, 5A, ..., 15A]` built by repeatedly adding `A.double()`. -/
def lookupTable5 (A : P) : List P := lookupRow (A + A) A 7

/-- `LookupTable5::select` (batch.rs): `self.0[x / 2]` for odd `x < 16`. -/
def tableSelect (t : List P) (x : ℕ) : P := t.getD (x / 2) 0

/-- The body of the `for i in (0..256).rev()` loop of
`optional_multiscalar_mul` (batch.rs): double the accumulator, then for
each (naf, lookup table) pair add or subtract the selected odd multiple
according to the sign of `naf[i]`. -/
def msmStep (nafs : List (List (ℕ × ℤ))) (tables : List (List P)) (i : ℕ) (r : P) : P :=
  (nafs.zip tables).foldl
    (fun t nt =>
      if 0 < nafAt nt.1 i then t + tableSelect nt.2 (nafAt nt.1 i).toNat
      else if nafAt nt.1 i < 0 then t - tableSelect nt.2 (-nafAt nt.1 i).toNat
      else t)
    (r + r)

/-- The outer loop of `optional_multiscalar_mul` (batch.rs), indices
running from `k - 1` down to 0. -/
def msmLoop (nafs : List (List (ℕ × ℤ))) (tables : List (List P)) : ℕ → P → P
  | 0, r => r
  | k + 1, r => msmLoop nafs tables k (msmStep nafs tables k r)

/-- `collect::<Option<Vec<_>>>()` on a list of options. -/
def sequenceOpt {α : Type} : List (Option α) → Option (List α)
  | [] => some []
  | none :: _ => none
  | some a :: rest =>
      match sequenceOpt rest with
      | none => none
      | some l => some (a :: l)

/-- `ExtendedPoint::optional_multiscalar_mul` (batch.rs): scalars are
turned into width-5 NAFs of their canonical integer value (`val`), the
points into lookup tables (failing if any point is `None`), and the
double-and-add loop is run from the identity. -/
def optional_multiscalar_mul (val : F → ℕ) (scalars : List F)
    (points : List (Option P)) : Option P :=
  match sequenceOpt (points.map (fun p => p.map (fun A => lookupTable5 A))) with
  | none => none
  | some tables =>
      some (msmLoop (scalars.map (fun c => non_adjacent_form (val c))) tables 256 0)

/-- `VartimeMultiscalarMul::vartime_multiscalar_mul` (traits.rs): wrap
every point in `Some` and unwrap the result (always present). -/
def vartime_multiscalar_mul (val : F → ℕ) (scalars : List F) (points : List P) : P :=
  (optional_multiscalar_mul val scalars (points.map some)).getD 0

structure BItem (F : Type) where
  vk_bytes : List ℕ
  sig : Sig
  c : F
deriving DecidableEq

/-- `Item::from` (batch.rs): the challenge is computed eagerly from the
signature R bytes, the verification key bytes, and the message. -/
def mkItem (hstar : List ℕ → F) (vk_bytes : List ℕ) (sig : Sig) (msg : List ℕ) :
    BItem F :=
  { vk_bytes := vk_bytes, sig := sig, c := hstar (sig.r_bytes ++ vk_bytes ++ msg) }

/-- The inner `for (c, sig) in sigs.iter()` loop of `Verifier::verify`
(batch.rs): decode `R` and `s`, short-circuiting to
`Err(InvalidSignature)` on failure, then accumulate `P_coeff -= z * s`,
`VK_coeff += z * c` and push `z` and `R`.  State:
`(P_coeff, VK_coeff, R_coeffs, Rs, counter)`, the counter indexing the
stream of random scalars. -/
def sigsLoop (decP : List ℕ → Option P) (decF : List ℕ → Option F) (z : ℕ → F) :
    List (F × Sig) → F × F × List F × List P × ℕ →
      Except String (F × F × List F × List P × ℕ)
  | [], st => Except.ok st
  | csig :: rest, (pc, vkc, rcs, rs, ctr) =>
      match decP csig.2.r_bytes with
      | none => Except.error "InvalidSignature"
      | some R =>
          match decF csig.2.s_bytes with
          | none => Except.error "InvalidSignature"
          | some s =>
              sigsLoop decP decF z rest
                (pc - z ctr * s, vkc + z ctr * csig.1,
                  rcs ++ [z ctr], rs ++ [R], ctr + 1)

/-- The outer `for (vk_bytes, sigs) in self.signatures.iter()` loop of
`Verifier::verify` (batch.rs).  `tryVK` stands for
`VerificationKey::try_from`; a `none` result models the panic of the
`.unwrap()` on it.  State:
`(P_coeff, VK_coeffs, VKs, R_coeffs, Rs, counter)`. -/
def groupsLoop (decP : List ℕ → Option P) (decF : List ℕ → Option F)
    (tryVK : List ℕ → Option P) (z : ℕ → F) :
    List (List ℕ × List (F × Sig)) → F × List F × List P × List F × List P × ℕ →
      Option (Except String (F × List F × List P × List F × List P × ℕ))
  | [], st => some (Except.ok st)
  | grp :: rest, (pc, vkcs, vks, rcs, rs, ctr) =>
      match tryVK grp.1 with
      | none => none
      | some VK =>
          match sigsLoop decP decF z grp.2 (pc, 0, rcs, rs, ctr) with
          | Except.error e => some (Except.error e)
          | Except.ok (pc2, vkc, rcs2, rs2, ctr2) =>
              groupsLoop decP decF tryVK z rest
                (pc2, vkcs ++ [vkc], vks ++ [VK], rcs2, rs2, ctr2)

/-- `Verifier::verify` (batch.rs): run the accumulation loops over the
grouped signature map, then compute the multiscalar equation
`-[Σ z_i s_i] P + Σ [z_i c_i] VK_i + Σ [z_i] R_i` and accept when the
result is killed by the cofactor (`is_small_order`).  `none` models the
`.unwrap()` panic on an undecodable verification key. -/
def batchVerify (B : P) (decP : List ℕ → Option P) (decF : List ℕ → Option F)
    (tryVK : List ℕ → Option P) (val : F → ℕ)
    (groups : List (List ℕ × List (F × Sig))) (z : ℕ → F) :
    Option (Except String Unit) :=
  match groupsLoop decP decF tryVK z groups (0, [], [], [], [], 0) with
  | none => none
  | some (Except.error e) => some (Except.error e)
  | some (Except.ok (pc, vkcs, vks, rcs, rs, _)) =>
      some (if (8 : ℕ) • vartime_multiscalar_mul val
            (pc :: (vkcs ++ rcs)) (B :: (vks ++ rs)) = 0
        then Except.ok () else Except.error "InvalidSignature")

/-! ### Theorems -/

theorem polyEval_eq (secret : F) (cs : List F) (x : F) :
    polyEval secret cs x = x * evalPow cs x + secret := by
  unfold polyEval
  congr 1
  induction cs with
  | nil => simp [evalPow]
  | cons c cs ih =>
    rw [List.reverse_cons, List.foldl_append]
    simp only [List.foldl_cons, List.foldl_nil, ih, evalPow, List.foldr_cons]
    ring

theorem verify_fold (B : P) (cs : List F) (x : F) :
    ∀ (w : F) (acc : P),
    ((cs.map (fun c => c • B)).foldl
      (fun a q => (a.1 * x, a.2 + a.1 • q)) (w, acc)).2
      = acc + (w * evalPow cs x) • B := by
  induction cs with
  | nil => intro w acc; simp [evalPow]
  | cons c cs ih =>
    intro w acc
    simp only [List.map_cons, List.foldl_cons]
    rw [ih]
    simp only [evalPow, List.foldr_cons, smul_smul]
    rw [mul_add, add_smul, add_assoc, mul_assoc]

theorem verify_share_of_generate (B : P) (secret : F) (cs : List F) (i : ℕ) :
    verify_share B
      { receiver_index := i
        value := polyEval secret cs ((i : ℕ) : F)
        commitment := secret • B :: cs.map (fun c => c • B) } = Except.ok () := by
  unfold verify_share
  simp only [List.foldl_cons, one_mul, one_smul, zero_add]
  rw [verify_fold, polyEval_eq, add_smul, if_pos]
  rw [mul_comm ((i : ℕ) : F) (evalPow cs ((i : ℕ) : F))]
  abel

/-- C5: the role rules of `Message::validate` are inverted in the code.  The
claim (and the repository's own test suite) requires a `SharePackage` from
the dealer to a signer to be accepted and dealer-to-aggregator to be
rejected with `ReceiverMustBeSigner`; the code does the opposite, because
its comparisons `receiver <= Signer(MAX_SIGNER_PARTICIPANT_ID)` (resp. the
sender variants) fire exactly when the participant IS a valid signer.  This
theorem evaluates the embedded `validateMessage` at the four failing
inputs. -/
theorem claim_C5_validate_role_rules_inverted :
    validateMessage
      { header := { version := 0, sender := ParticipantId.Dealer,
                    receiver := ParticipantId.Signer 1 }
        payload := MsgPayload.SharePackage
          { group_public := [], secret_share := [], share_commitment := [] } }
      = Except.error MsgErr.ReceiverMustBeSigner
    ∧ validateMessage
      { header := { version := 0, sender := ParticipantId.Dealer,
                    receiver := ParticipantId.Aggregator }
        payload := MsgPayload.SharePackage
          { group_public := [], secret_share := [], share_commitment := [] } }
      = Except.ok ()
    ∧ validateMessage
      { header := { version := 0, sender := ParticipantId.Signer 1,
                    receiver := ParticipantId.Aggregator }
        payload := MsgPayload.SigningCommitments { «hiding» := [], binding := [] } }
      = Except.error MsgErr.SenderMustBeSigner
    ∧ validateMessage
      { header := { version := 0, sender := ParticipantId.Dealer,
                    receiver := ParticipantId.Aggregator }
        payload := MsgPayload.SignatureShare { signature := [] } }
      = Except.ok () := by
  exact ⟨rfl, rfl, rfl, rfl⟩

/-- C6: `Payload::validate` checks only the message length of a
`SigningPackage`; the commitment-count bounds `[MIN_SIGNERS, MAX_SIGNERS]`
required by the claim (and exercised by the repository's test suite through
the `NotEnoughCommitments` / `TooManyCommitments` errors, which do not even
exist in this validate.rs) are not enforced.  A package with a single
commitment and one with 300 commitments are both accepted; only an
over-2-MiB message is rejected. -/
theorem claim_C6_signingpackage_count_bounds_unchecked :
    validatePayload (MsgPayload.SigningPackage
      { signing_commitments := [(ParticipantId.Signer 1, { «hiding» := [], binding := [] })]
        message := [104, 111, 108, 97] })
      = Except.ok ()
    ∧ validatePayload (MsgPayload.SigningPackage
      { signing_commitments := (List.range 300).map
          (fun i => (ParticipantId.Signer i, { «hiding» := [], binding := [] }))
        message := [104, 111, 108, 97] })
      = Except.ok ()
    ∧ validatePayload (MsgPayload.SigningPackage
      { signing_commitments :=
          [(ParticipantId.Signer 1, { «hiding» := [], binding := [] }),
           (ParticipantId.Signer 2, { «hiding» := [], binding := [] })]
        message := List.replicate (2 * 1024 * 1024 + 1) 0 })
      = Except.error MsgErr.MsgTooBig := by
  refine ⟨rfl, rfl, ?_⟩
  rw [validatePayload, List.length_replicate]
  norm_num [MAX_PROTOCOL_MESSAGE_LEN]

theorem lagrange_fold_den_ne_zero (signer_index : ℕ)
    (l : List (SigningCommitments P))
    (hl : ∀ c ∈ l, c.index ≠ signer_index → ((c.index : F) - (signer_index : F)) ≠ 0) :
    ∀ nd : F × F, nd.2 ≠ 0 →
    (l.foldl
      (fun (nd : F × F) commitment =>
        if commitment.index = signer_index then nd
        else (nd.1 * ((commitment.index : ℕ) : F),
              nd.2 * (((commitment.index : ℕ) : F) - ((signer_index : ℕ) : F))))
      nd).2 ≠ 0 := by
  induction l with
  | nil => intro nd hnd; simpa using hnd
  | cons c l ih =>
    intro nd hnd
    by_cases hc : c.index = signer_index
    · simpa [List.foldl_cons, hc] using
        ih (fun d hd => hl d (List.mem_cons_of_mem _ hd)) nd hnd
    · have hfac : ((c.index : F) - (signer_index : F)) ≠ 0 :=
        hl c (List.mem_cons_self c l) hc
      simpa [List.foldl_cons, hc] using
        ih (fun d hd => hl d (List.mem_cons_of_mem _ hd)) _ (mul_ne_zero hnd hfac)

/-- C10: the `"Duplicate shares provided"` branch of `gen_lagrange_coeff` is
unreachable: for every signing package whose commitment indices are `u32`s
(hence below `2^32`, which maps injectively into the scalar field) and every
`u32` signer index, the accumulated denominator is a product of non-zero
factors, since each commitment whose index equals the signer index is
skipped; so the function always returns a coefficient. -/
theorem claim_C10_lagrange_duplicate_branch_unreachable
    (hchar : ∀ a b : ℕ, a < 4294967296 → b < 4294967296 → (a : F) = (b : F) → a = b)
    (signing_package : SigningPackage P) (signer_index : ℕ)
    (hsi : signer_index < 4294967296)
    (hidx : ∀ c ∈ signing_package.signing_commitments, c.index < 4294967296) :
    ∃ coeff : F, gen_lagrange_coeff signer_index signing_package = Except.ok coeff := by
  have hden := lagrange_fold_den_ne_zero (F := F) signer_index
    signing_package.signing_commitments
    (fun c hc hne => by
      intro h0
      exact hne (hchar _ _ (hidx c hc) hsi (sub_eq_zero.mp h0)))
    (1, 1) one_ne_zero
  unfold gen_lagrange_coeff
  rw [if_neg hden]
  exact ⟨_, rfl⟩

/-- Witness for C10 at a concrete input: scalar field `ℚ`, a package holding
commitments for participants 1 and 2, signer index 1. -/
theorem claim_C10_witness :
    ∃ coeff : ℚ, gen_lagrange_coeff 1
      ({ message := []
         signing_commitments :=
           [{ index := 1, «hiding» := (0 : ℚ), binding := 0 },
            { index := 2, «hiding» := 0, binding := 0 }] } : SigningPackage ℚ)
      = Except.ok coeff :=
  claim_C10_lagrange_duplicate_branch_unreachable
    (fun a b _ _ h => Nat.cast_injective h) _ 1 (by norm_num)
    (by
      simp only [List.mem_cons, List.not_mem_nil, or_false]
      rintro c (rfl | rfl) <;> norm_num)

/-- C3: every share produced by `generate_shares` (and hence by dealer
keygen) passes `verify_share`: the Horner-evaluated value `f(i)` times the
basepoint equals the power-weighted sum of the published coefficient
commitments. -/
theorem claim_C3_generated_shares_verify (B : P) (secret : F) (n t : ℕ)
    (coefficients : List F) (shares : List (Share F P))
    (hgen : generate_shares B secret n t coefficients = Except.ok shares)
    (sh : Share F P) (hm : sh ∈ shares) :
    verify_share B sh = Except.ok () := by
  unfold generate_shares at hgen
  split at hgen
  · cases hgen
  · split at hgen
    · cases hgen
    · split at hgen
      · cases hgen
      · cases hgen
        obtain ⟨k, _, rfl⟩ := List.mem_map.mp hm
        exact verify_share_of_generate B secret coefficients (k + 1)

/-- Witness for C3 at a concrete input: `F = P = ZMod 101`, basepoint 1,
secret 3, `n = t = 2`, coefficient list `[1]`; the share for participant 1
has value `f(1) = 4` and passes verification. -/
theorem claim_C3_witness :
    verify_share (1 : ZMod 101)
      ({ receiver_index := 1, value := 4, commitment := [3, 1] } : Share (ZMod 101) (ZMod 101))
      = Except.ok () :=
  claim_C3_generated_shares_verify (1 : ZMod 101) (3 : ZMod 101) 2 2 ([1] : List (ZMod 101))
    [{ receiver_index := 1, value := 4, commitment := [3, 1] },
     { receiver_index := 2, value := 5, commitment := [3, 1] }]
    (by decide)
    _ (List.mem_cons_self _ _)

theorem fold_pair_prod {α : Type} (p : α → Prop) [DecidablePred p] (f g : α → F) :
    ∀ (l : List α) (nd : F × F),
    l.foldl (fun nd a => if p a then nd else (nd.1 * f a, nd.2 * g a)) nd
      = (nd.1 * (l.map (fun a => if p a then 1 else f a)).prod,
         nd.2 * (l.map (fun a => if p a then 1 else g a)).prod)
  | [], nd => by simp
  | a :: l, nd => by
    by_cases hpa : p a
    · simp only [List.foldl_cons, if_pos hpa, List.map_cons, List.prod_cons, one_mul]
      exact fold_pair_prod p f g l nd
    · simp only [List.foldl_cons, if_neg hpa, List.map_cons, List.prod_cons]
      rw [fold_pair_prod p f g l]
      simp [mul_assoc]

theorem prodIf_of_not_mem {α : Type} [DecidableEq α] (f : α → F) (L : List α) (a : α)
    (ha : a ∉ L) :
    (L.map (fun j => if j = a then 1 else f j)).prod = (L.map f).prod := by
  induction L with
  | nil => rfl
  | cons b L ih =>
    simp only [List.map_cons, List.prod_cons]
    rw [if_neg (by rintro rfl; exact ha (List.mem_cons_self _ _)),
        ih (fun h => ha (List.mem_cons_of_mem _ h))]

theorem prodIf_nodup_toFinset {α : Type} [DecidableEq α] (f : α → F) :
    ∀ (L : List α), L.Nodup → ∀ a : α,
    (L.map (fun j => if j = a then 1 else f j)).prod = ∏ j ∈ L.toFinset.erase a, f j := by
  intro L
  induction L with
  | nil => intro _ a; simp
  | cons b L ih =>
    intro hnd a
    obtain ⟨hbL, hndL⟩ := List.nodup_cons.mp hnd
    simp only [List.map_cons, List.prod_cons, List.toFinset_cons]
    by_cases hba : b = a
    · subst hba
      rw [if_pos rfl, one_mul, prodIf_of_not_mem f L b hbL,
          Finset.erase_insert (by simpa using hbL), List.prod_toFinset f hndL]
    · rw [if_neg hba, Finset.erase_insert_of_ne hba,
          Finset.prod_insert
            (fun h => hbL (List.mem_toFinset.mp (Finset.mem_of_mem_erase h))),
          ih hndL a]

theorem evalPow_eq_sum (cs : List F) (x : F) :
    evalPow cs x = ∑ k ∈ Finset.range cs.length, cs.getD k 0 * x ^ k := by
  induction cs with
  | nil => simp [evalPow]
  | cons c cs ih =>
    have hstep : evalPow (c :: cs) x = c + x * evalPow cs x := rfl
    rw [hstep, ih, List.length_cons, Finset.sum_range_succ']
    simp only [List.getD_cons_succ, List.getD_cons_zero, pow_zero, mul_one]
    rw [Finset.mul_sum, add_comm]
    congr 1
    refine Finset.sum_congr rfl fun k _ => ?_
    ring

theorem fPoly_eval (secret : F) (coeffs : List F) (x : F) :
    (fPoly secret coeffs).eval x = polyEval secret coeffs x := by
  rw [polyEval_eq, evalPow_eq_sum, fPoly]
  simp only [Polynomial.eval_add, Polynomial.eval_C, Polynomial.eval_finset_sum,
    Polynomial.eval_mul, Polynomial.eval_pow, Polynomial.eval_X]
  rw [add_comm, Finset.mul_sum]
  congr 1
  refine Finset.sum_congr rfl fun k _ => ?_
  ring

theorem fPoly_degree_le (secret : F) (coeffs : List F) :
    (fPoly secret coeffs).degree ≤ (coeffs.length : WithBot ℕ) := by
  refine le_trans (Polynomial.degree_add_le _ _) (max_le ?_ ?_)
  · exact le_trans Polynomial.degree_C_le (by exact_mod_cast Nat.cast_le.mpr (Nat.zero_le _))
  · refine le_trans (Polynomial.degree_sum_le _ _) ?_
    rw [Finset.sup_le_iff]
    intro k hk
    refine le_trans (Polynomial.degree_C_mul_X_pow_le _ _) ?_
    exact_mod_cast Nat.cast_le.mpr (Finset.mem_range.mp hk)

theorem lag_prod_eq_basis_eval_zero (s : Finset ℕ) (a : ℕ) :
    (∏ j ∈ s.erase a, ((j : ℕ) : F)) * (∏ j ∈ s.erase a, (((j : ℕ) : F) - ((a : ℕ) : F)))⁻¹
      = (Lagrange.basis s (fun j : ℕ => ((j : ℕ) : F)) a).eval 0 := by
  rw [Lagrange.basis, Polynomial.eval_prod, ← Finset.prod_inv_distrib,
    ← Finset.prod_mul_distrib]
  refine Finset.prod_congr rfl fun j _ => ?_
  rw [Lagrange.basisDivisor]
  simp only [Polynomial.eval_mul, Polynomial.eval_C, Polynomial.eval_sub, Polynomial.eval_X,
    zero_sub]
  rw [show (((a : ℕ) : F) - ((j : ℕ) : F)) = -(((j : ℕ) : F) - ((a : ℕ) : F)) by ring,
    inv_neg]
  ring

theorem finset_lagrange_sum (s : Finset ℕ)
    (hinj : Set.InjOn (fun j : ℕ => ((j : ℕ) : F)) ↑s)
    (secret : F) (coeffs : List F) (hdeg : coeffs.length < s.card) :
    ∑ a ∈ s,
      ((∏ j ∈ s.erase a, ((j : ℕ) : F))
        * (∏ j ∈ s.erase a, (((j : ℕ) : F) - ((a : ℕ) : F)))⁻¹)
        * polyEval secret coeffs ((a : ℕ) : F) = secret := by
  have hdlt : (fPoly secret coeffs).degree < (s.card : WithBot ℕ) :=
    lt_of_le_of_lt (fPoly_degree_le secret coeffs) (by exact_mod_cast hdeg)
  have hinterp := Lagrange.eq_interpolate hinj hdlt
  have h0 : (fPoly secret coeffs).eval 0 = secret := by
    rw [fPoly]
    simp [Polynomial.eval_finset_sum]
  calc
    ∑ a ∈ s,
        ((∏ j ∈ s.erase a, ((j : ℕ) : F))
          * (∏ j ∈ s.erase a, (((j : ℕ) : F) - ((a : ℕ) : F)))⁻¹)
          * polyEval secret coeffs ((a : ℕ) : F)
      = ∑ a ∈ s, (fPoly secret coeffs).eval ((a : ℕ) : F)
          * (Lagrange.basis s (fun j : ℕ => ((j : ℕ) : F)) a).eval 0 := by
        refine Finset.sum_congr rfl fun a _ => ?_
        rw [lag_prod_eq_basis_eval_zero, fPoly_eval, mul_comm]
    _ = (Lagrange.interpolate s (fun j : ℕ => ((j : ℕ) : F))
          (fun i => (fPoly secret coeffs).eval ((i : ℕ) : F))).eval 0 := by
        rw [Lagrange.interpolate_apply, Polynomial.eval_finset_sum]
        refine Finset.sum_congr rfl fun a _ => ?_
        rw [Polynomial.eval_mul, Polynomial.eval_C]
    _ = (fPoly secret coeffs).eval 0 := by rw [← hinterp]
    _ = secret := h0

theorem list_lagrange_sum (L : List ℕ) (hnd : L.Nodup)
    (hinj : ∀ a ∈ L, ∀ b ∈ L, ((a : ℕ) : F) = ((b : ℕ) : F) → a = b)
    (secret : F) (coeffs : List F) (hdeg : coeffs.length < L.length) :
    (L.map (fun a =>
      ((L.map (fun j => if j = a then 1 else ((j : ℕ) : F))).prod
        * ((L.map (fun j => if j = a then 1 else ((j : ℕ) : F) - ((a : ℕ) : F))).prod)⁻¹)
      * polyEval secret coeffs ((a : ℕ) : F))).sum = secret := by
  have hcard : L.toFinset.card = L.length := List.toFinset_card_of_nodup hnd
  have hinjOn : Set.InjOn (fun j : ℕ => ((j : ℕ) : F)) ↑L.toFinset := by
    intro a ha b hb h
    exact hinj a (List.mem_toFinset.mp ha) b (List.mem_toFinset.mp hb) h
  rw [← List.sum_toFinset _ hnd]
  refine Eq.trans (Finset.sum_congr rfl fun a _ => ?_)
    (finset_lagrange_sum L.toFinset hinjOn secret coeffs (by rw [hcard]; exact hdeg))
  rw [prodIf_nodup_toFinset (fun j : ℕ => ((j : ℕ) : F)) L hnd a,
    prodIf_nodup_toFinset (fun j : ℕ => ((j : ℕ) : F) - ((a : ℕ) : F)) L hnd a]

theorem range_toFinset (n : ℕ) : (List.range n).toFinset = Finset.range n := by
  ext x; simp

theorem foldlM_lagrangeStep (shares : List (Share F P)) :
    ∀ (l : List ℕ), (∀ i ∈ l, (lagrangePair shares i).2 ≠ 0) → ∀ acc : List F,
    l.foldlM (lagrangeStep shares) acc
      = Except.ok (acc ++ l.map (fun i =>
          (lagrangePair shares i).1 * ((lagrangePair shares i).2)⁻¹)) := by
  intro l
  induction l with
  | nil =>
    intro _ acc
    rw [List.foldlM_nil, List.map_nil, List.append_nil]
    rfl
  | cons i l ih =>
    intro h acc
    have hi : (lagrangePair shares i).2 ≠ 0 := h i (List.mem_cons_self _ _)
    have hstep : lagrangeStep shares acc i
        = Except.ok (acc ++ [(lagrangePair shares i).1 * ((lagrangePair shares i).2)⁻¹]) := by
      unfold lagrangeStep
      rw [if_neg hi]
    rw [List.foldlM_cons, hstep]
    show l.foldlM (lagrangeStep shares) _ = _
    rw [ih (fun j hj => h j (List.mem_cons_of_mem _ hj))]
    simp

theorem foldl_add_sum (f : ℕ → F) :
    ∀ (l : List ℕ) (a : F), l.foldl (fun s i => s + f i) a = a + (l.map f).sum := by
  intro l
  induction l with
  | nil => intro a; simp
  | cons i l ih =>
    intro a
    rw [List.foldl_cons, ih, List.map_cons, List.sum_cons, add_assoc]

theorem getD_map_ridx (shares : List (Share F P)) (i : ℕ) (hi : i < shares.length) :
    (shares.map (fun sh => sh.receiver_index)).getD i 0 = ridxAt shares i := by
  unfold ridxAt
  rw [List.getD_eq_getElem _ _ (by simpa using hi), List.getD_eq_getElem _ _ hi,
    List.getElem_map]

theorem ridxAt_inj (shares : List (Share F P))
    (hnd : (shares.map (fun sh => sh.receiver_index)).Nodup)
    (i j : ℕ) (hi : i < shares.length) (hj : j < shares.length)
    (hij : ridxAt shares i = ridxAt shares j) : i = j := by
  have hlen : (shares.map (fun sh => sh.receiver_index)).length = shares.length :=
    List.length_map _ _
  have h1 := getD_map_ridx shares i hi
  have h2 := getD_map_ridx shares j hj
  rw [List.getD_eq_getElem _ _ (by rw [hlen]; exact hi)] at h1
  rw [List.getD_eq_getElem _ _ (by rw [hlen]; exact hj)] at h2
  have := hnd.getElem_inj_iff.mp (h1.trans (hij.trans h2.symm))
  exact this

theorem ridxAt_mem_toFinset (shares : List (Share F P)) (i : ℕ) (hi : i < shares.length) :
    ridxAt shares i ∈ (shares.map (fun sh => sh.receiver_index)).toFinset := by
  rw [List.mem_toFinset, ← getD_map_ridx shares i hi]
  rw [List.getD_eq_getElem _ _ (by simpa using hi)]
  exact List.getElem_mem _

theorem ridxAt_surj (shares : List (Share F P)) (a : ℕ)
    (ha : a ∈ (shares.map (fun sh => sh.receiver_index)).toFinset) :
    ∃ i, i < shares.length ∧ ridxAt shares i = a := by
  rw [List.mem_toFinset, List.mem_iff_getElem] at ha
  obtain ⟨i, hi, hval⟩ := ha
  have hi' : i < shares.length := by simpa using hi
  refine ⟨i, hi', ?_⟩
  rw [← getD_map_ridx shares i hi', List.getD_eq_getElem _ _ hi, hval]

theorem sum_pos_reindex (shares : List (Share F P))
    (hnd : (shares.map (fun sh => sh.receiver_index)).Nodup) (G : ℕ → F) :
    ∑ j ∈ Finset.range shares.length, G (ridxAt shares j)
      = ∑ a ∈ (shares.map (fun sh => sh.receiver_index)).toFinset, G a := by
  refine Finset.sum_bij (fun j _ => ridxAt shares j) ?_ ?_ ?_ ?_
  · intro j hj
    exact ridxAt_mem_toFinset shares j (Finset.mem_range.mp hj)
  · intro j1 h1 j2 h2 h
    exact ridxAt_inj shares hnd j1 j2 (Finset.mem_range.mp h1) (Finset.mem_range.mp h2) h
  · intro a ha
    obtain ⟨i, hi, hia⟩ := ridxAt_surj shares a ha
    exact ⟨i, Finset.mem_range.mpr hi, hia⟩
  · intro j _; rfl

theorem prod_pos_reindex (shares : List (Share F P))
    (hnd : (shares.map (fun sh => sh.receiver_index)).Nodup) (f : ℕ → F)
    (i : ℕ) (hi : i < shares.length) :
    ∏ j ∈ (Finset.range shares.length).erase i, f (ridxAt shares j)
      = ∏ a ∈ ((shares.map (fun sh => sh.receiver_index)).toFinset).erase (ridxAt shares i),
          f a := by
  refine Finset.prod_bij (fun j _ => ridxAt shares j) ?_ ?_ ?_ ?_
  · intro j hj
    obtain ⟨hne, hjr⟩ := Finset.mem_erase.mp hj
    refine Finset.mem_erase.mpr ⟨?_, ridxAt_mem_toFinset shares j (Finset.mem_range.mp hjr)⟩
    intro h
    exact hne (ridxAt_inj shares hnd j i (Finset.mem_range.mp hjr) hi h)
  · intro j1 h1 j2 h2 h
    exact ridxAt_inj shares hnd j1 j2
      (Finset.mem_range.mp (Finset.mem_of_mem_erase h1))
      (Finset.mem_range.mp (Finset.mem_of_mem_erase h2)) h
  · intro a ha
    obtain ⟨hne, har⟩ := Finset.mem_erase.mp ha
    obtain ⟨j, hj, hja⟩ := ridxAt_surj shares a har
    refine ⟨j, Finset.mem_erase.mpr ⟨?_, Finset.mem_range.mpr hj⟩, hja⟩
    rintro rfl
    exact hne hja.symm
  · intro j _; rfl

theorem lagrangePair_eq (shares : List (Share F P)) (i : ℕ) :
    lagrangePair shares i
      = (((List.range shares.length).map
            (fun j => if j = i then 1 else ((ridxAt shares j : ℕ) : F))).prod,
         ((List.range shares.length).map
            (fun j => if j = i then 1
              else ((ridxAt shares j : ℕ) : F) - ((ridxAt shares i : ℕ) : F))).prod) := by
  unfold lagrangePair
  rw [fold_pair_prod (fun j => j = i)
    (fun j => (((shares.getD j defaultShare).receiver_index : ℕ) : F))
    (fun j => (((shares.getD j defaultShare).receiver_index : ℕ) : F)
      - (((shares.getD i defaultShare).receiver_index : ℕ) : F))
    (List.range shares.length) (1, 1)]
  simp [ridxAt]

theorem lagrangePair_fst (shares : List (Share F P))
    (hnd : (shares.map (fun sh => sh.receiver_index)).Nodup) (i : ℕ)
    (hi : i < shares.length) :
    (lagrangePair shares i).1
      = ∏ a ∈ ((shares.map (fun sh => sh.receiver_index)).toFinset).erase (ridxAt shares i),
          ((a : ℕ) : F) := by
  rw [lagrangePair_eq]
  dsimp only
  rw [prodIf_nodup_toFinset (fun j => ((ridxAt shares j : ℕ) : F)) _ (List.nodup_range _) i,
    range_toFinset]
  exact prod_pos_reindex shares hnd (fun a => ((a : ℕ) : F)) i hi

theorem lagrangePair_snd (shares : List (Share F P))
    (hnd : (shares.map (fun sh => sh.receiver_index)).Nodup) (i : ℕ)
    (hi : i < shares.length) :
    (lagrangePair shares i).2
      = ∏ a ∈ ((shares.map (fun sh => sh.receiver_index)).toFinset).erase (ridxAt shares i),
          (((a : ℕ) : F) - ((ridxAt shares i : ℕ) : F)) := by
  rw [lagrangePair_eq]
  dsimp only
  rw [prodIf_nodup_toFinset
    (fun j => ((ridxAt shares j : ℕ) : F) - ((ridxAt shares i : ℕ) : F)) _
    (List.nodup_range _) i, range_toFinset]
  exact prod_pos_reindex shares hnd
    (fun a => ((a : ℕ) : F) - ((ridxAt shares i : ℕ) : F)) i hi

theorem getD_map_range (h : ℕ → F) (n j : ℕ) (hj : j < n) :
    ((List.range n).map h).getD j 0 = h j := by
  rw [List.getD_eq_getElem _ _ (by simpa using hj), List.getElem_map, List.getElem_range]

theorem generate_shares_value (B : P) (secret : F) (n t : ℕ) (coefficients : List F)
    (shares : List (Share F P))
    (hgen : generate_shares B secret n t coefficients = Except.ok shares)
    (sh : Share F P) (hm : sh ∈ shares) :
    sh.value = polyEval secret coefficients ((sh.receiver_index : ℕ) : F) := by
  unfold generate_shares at hgen
  split at hgen
  · cases hgen
  · split at hgen
    · cases hgen
    · split at hgen
      · cases hgen
      · cases hgen
        obtain ⟨k, _, rfl⟩ := List.mem_map.mp hm
        rfl

set_option maxHeartbeats 2000000 in
/-- C8: Lagrange interpolation at 0 over any subset of at least `t` of the
shares produced by `generate_shares` (with pairwise distinct receiver
indices) reconstructs the dealt secret: `reconstruct_secret` (frost.rs test
module) returns the original `a_0`.  The hypothesis `hinj` is the scalar
field interface fact that the distinct `u32` receiver indices map to
distinct field elements (true of `jubjub::Fr`, whose modulus exceeds
`2^32`). -/
theorem claim_C8_lagrange_reconstruction (B : P) (secret : F) (n t : ℕ)
    (coefficients : List F) (hclen : coefficients.length = t - 1) (ht : 1 ≤ t)
    (shares : List (Share F P))
    (hgen : generate_shares B secret n t coefficients = Except.ok shares)
    (sub : List (Share F P)) (hsub : ∀ sh ∈ sub, sh ∈ shares)
    (hcard : t ≤ sub.length)
    (hnd : (sub.map (fun sh => sh.receiver_index)).Nodup)
    (hinj : ∀ a ∈ sub.map (fun sh => sh.receiver_index),
            ∀ b ∈ sub.map (fun sh => sh.receiver_index),
            ((a : ℕ) : F) = ((b : ℕ) : F) → a = b) :
    reconstruct_secret sub = Except.ok secret := by
  have hlen1 : 1 ≤ sub.length := le_trans ht hcard
  have hmemD : ∀ i, i < sub.length → sub.getD i defaultShare ∈ sub := by
    intro i hi
    rw [List.getD_eq_getElem _ _ hi]
    exact List.getElem_mem _
  have hval : ∀ i, i < sub.length →
      (sub.getD i defaultShare).value
        = polyEval secret coefficients ((ridxAt sub i : ℕ) : F) := by
    intro i hi
    exact generate_shares_value B secret n t coefficients shares hgen _
      (hsub _ (hmemD i hi))
  have hridx_mem : ∀ i, i < sub.length →
      ridxAt sub i ∈ sub.map (fun sh => sh.receiver_index) := by
    intro i hi
    exact List.mem_toFinset.mp (ridxAt_mem_toFinset sub i hi)
  have hdens : ∀ i ∈ List.range sub.length, (lagrangePair sub i).2 ≠ 0 := by
    intro i hi
    have hi' : i < sub.length := List.mem_range.mp hi
    rw [lagrangePair_snd sub hnd i hi']
    rw [Finset.prod_ne_zero_iff]
    intro a ha
    obtain ⟨hane, haf⟩ := Finset.mem_erase.mp ha
    refine sub_ne_zero.mpr fun h => hane ?_
    exact hinj a (List.mem_toFinset.mp haf) (ridxAt sub i) (hridx_mem i hi') h
  simp only [reconstruct_secret]
  rw [if_neg (by omega)]
  rw [foldlM_lagrangeStep sub (List.range sub.length) hdens []]
  rw [List.nil_append]
  dsimp only
  congr 1
  rw [foldl_add_sum
    (fun i => ((List.range sub.length).map (fun i =>
        (lagrangePair sub i).1 * ((lagrangePair sub i).2)⁻¹)).getD i 0
      * (sub.getD i defaultShare).value)
    (List.range sub.length) 0]
  rw [zero_add, ← List.sum_toFinset _ (List.nodup_range sub.length), range_toFinset]
  have hstep : ∀ j ∈ Finset.range sub.length,
      ((List.range sub.length).map (fun i =>
          (lagrangePair sub i).1 * ((lagrangePair sub i).2)⁻¹)).getD j 0
        * (sub.getD j defaultShare).value
      = ((∏ a ∈ ((sub.map (fun sh => sh.receiver_index)).toFinset).erase (ridxAt sub j),
            ((a : ℕ) : F))
          * (∏ a ∈ ((sub.map (fun sh => sh.receiver_index)).toFinset).erase (ridxAt sub j),
            (((a : ℕ) : F) - ((ridxAt sub j : ℕ) : F)))⁻¹)
          * polyEval secret coefficients ((ridxAt sub j : ℕ) : F) := by
    intro j hj
    have hj' : j < sub.length := Finset.mem_range.mp hj
    rw [getD_map_range _ _ _ hj', lagrangePair_fst sub hnd j hj',
      lagrangePair_snd sub hnd j hj', hval j hj']
  rw [Finset.sum_congr rfl hstep]
  rw [sum_pos_reindex sub hnd (fun a =>
    ((∏ b ∈ ((sub.map (fun sh => sh.receiver_index)).toFinset).erase a, ((b : ℕ) : F))
      * (∏ b ∈ ((sub.map (fun sh => sh.receiver_index)).toFinset).erase a,
          (((b : ℕ) : F) - ((a : ℕ) : F)))⁻¹)
      * polyEval secret coefficients ((a : ℕ) : F))]
  refine finset_lagrange_sum (sub.map (fun sh => sh.receiver_index)).toFinset
    ?_ secret coefficients ?_
  · intro a ha b hb h
    exact hinj a (List.mem_toFinset.mp ha) b (List.mem_toFinset.mp hb) h
  · rw [List.toFinset_card_of_nodup hnd, List.length_map]
    omega

/-- Witness for C8 at a concrete input: `F = P = ZMod 101`, secret 3,
polynomial `3 + x`, `n = 3`, `t = 2`; reconstructing from the shares of
participants 1 and 3 returns the secret. -/
theorem claim_C8_witness :
    reconstruct_secret
      [({ receiver_index := 1, value := 4, commitment := [3, 1] } : Share (ZMod 101) (ZMod 101)),
       { receiver_index := 3, value := 6, commitment := [3, 1] }]
      = Except.ok 3 := by
  refine claim_C8_lagrange_reconstruction (1 : ZMod 101) (3 : ZMod 101) 3 2
    ([1] : List (ZMod 101)) rfl (by decide)
    [{ receiver_index := 1, value := 4, commitment := [3, 1] },
     { receiver_index := 2, value := 5, commitment := [3, 1] },
     { receiver_index := 3, value := 6, commitment := [3, 1] }]
    (by decide)
    [{ receiver_index := 1, value := 4, commitment := [3, 1] },
     { receiver_index := 3, value := 6, commitment := [3, 1] }]
    (by decide) (by decide) (by decide) (by decide)

theorem gen_group_commitment_eq (signing_package : SigningPackage P)
    (rhoF : ℕ → F) (bindings : ℕ → Option F)
    (h : ∀ c ∈ signing_package.signing_commitments, bindings c.index = some (rhoF c.index)) :
    gen_group_commitment signing_package bindings
      = Except.ok ((signing_package.signing_commitments.map
          (fun c => c.hiding + rhoF c.index • c.binding)).sum) := by
  unfold gen_group_commitment
  suffices hgen : ∀ (l : List (SigningCommitments P))
      (_ : ∀ c ∈ l, bindings c.index = some (rhoF c.index)) (acc : P),
      l.foldlM
        (fun accumulator commitment =>
          match bindings commitment.index with
          | none => Except.error "No matching commitment index"
          | some rho_i =>
            Except.ok (accumulator + (commitment.hiding + rho_i • commitment.binding)))
        acc
        = Except.ok (acc + (l.map (fun c => c.hiding + rhoF c.index • c.binding)).sum) by
    rw [hgen signing_package.signing_commitments h 0, zero_add]
  intro l
  induction l with
  | nil =>
    intro _ acc
    rw [List.foldlM_nil, List.map_nil, List.sum_nil, add_zero]
    rfl
  | cons c l ih =>
    intro hl acc
    rw [List.foldlM_cons, hl c (List.mem_cons_self _ _)]
    show l.foldlM _ _ = _
    rw [ih (fun x hx => hl x (List.mem_cons_of_mem _ hx))]
    rw [List.map_cons, List.sum_cons, add_assoc]

theorem forM_ok {α : Type} (f : α → Except String Unit) :
    ∀ (l : List α), (∀ x ∈ l, f x = Except.ok ()) → l.forM f = Except.ok () := by
  intro l
  induction l with
  | nil => intro _; rfl
  | cons x l ih =>
    intro h
    show (f x >>= fun _ => l.forM f) = Except.ok ()
    rw [h x (List.mem_cons_self _ _)]
    show l.forM f = Except.ok ()
    exact ih (fun y hy => h y (List.mem_cons_of_mem _ hy))

theorem foldl_add_sum' {α : Type} (f : α → F) :
    ∀ (l : List α) (a : F), l.foldl (fun s x => s + f x) a = a + (l.map f).sum := by
  intro l
  induction l with
  | nil => intro a; simp
  | cons x l ih =>
    intro a
    rw [List.foldl_cons, ih, List.map_cons, List.sum_cons, add_assoc]

theorem list_sum_smul (B : P) (g : ℕ → F) (L : List ℕ) :
    (L.map (fun i => g i • B)).sum = ((L.map g).sum) • B := by
  induction L with
  | nil => simp
  | cons i L ih =>
    simp only [List.map_cons, List.sum_cons, add_smul, ih]

theorem gen_lagrange_coeff_eq (sp : SigningPackage P) (i : ℕ) :
    gen_lagrange_coeff i sp
      = (if ((sp.signing_commitments.map (fun c => c.index)).map
            (fun j => if j = i then 1 else ((j : ℕ) : F) - ((i : ℕ) : F))).prod = 0
        then Except.error "Duplicate shares provided"
        else Except.ok (((sp.signing_commitments.map (fun c => c.index)).map
            (fun j => if j = i then 1 else ((j : ℕ) : F))).prod
          * (((sp.signing_commitments.map (fun c => c.index)).map
            (fun j => if j = i then 1 else ((j : ℕ) : F) - ((i : ℕ) : F))).prod)⁻¹)) := by
  unfold gen_lagrange_coeff
  rw [← List.foldl_map (fun c : SigningCommitments P => c.index)
    (fun (nd : F × F) j =>
      if j = i then nd
      else (nd.1 * ((j : ℕ) : F), nd.2 * (((j : ℕ) : F) - ((i : ℕ) : F))))
    sp.signing_commitments (1, 1)]
  rw [fold_pair_prod (fun j => j = i) (fun j => ((j : ℕ) : F))
    (fun j => ((j : ℕ) : F) - ((i : ℕ) : F)) _ (1, 1)]
  simp only [one_mul]

theorem list_sum_map_add {α : Type} (l : List α) (f g : α → F) :
    (l.map (fun i => f i + g i)).sum = (l.map f).sum + (l.map g).sum := by
  induction l with
  | nil => simp
  | cons a l ih => simp only [List.map_cons, List.sum_cons, ih]; ring

theorem list_sum_map_mul_right {α : Type} (l : List α) (f : α → F) (r : F) :
    (l.map (fun i => f i * r)).sum = (l.map f).sum * r := by
  induction l with
  | nil => simp
  | cons a l ih => simp only [List.map_cons, List.sum_cons, ih]; ring

theorem verify_ok_of (B : P) (hstar : List ℕ → F) (decP : List ℕ → Option P)
    (decF : List ℕ → Option F) (vk : VKey P) (msg : List ℕ) (sig : Sig)
    (R : P) (s : F) (hR : decP sig.r_bytes = some R) (hs : decF sig.s_bytes = some s)
    (hch : (8 : ℕ) • (-(s • B) + R + hstar (sig.r_bytes ++ vk.bytes ++ msg) • vk.point)
      = 0) :
    verify B hstar decP decF vk msg sig = Except.ok () := by
  unfold verify
  rw [hR, hs]
  dsimp only
  rw [if_pos hch]

set_option maxHeartbeats 4000000 in
/-- C1: end-to-end FROST correctness.  For dealer keygen with parameters
`1 ≤ t ≤ n`, any size-`t` subset `L` of participant indices with fresh
nonces `(d_i, e_i)`, and the signing package holding exactly the
commitments `(i, d_i•B, e_i•B)` for `i ∈ L`: every participant's `sign`
succeeds, `aggregate` of the resulting signature shares returns a
signature, and the spec-modelled single-signature `verify` accepts it under
the group public key.  `hinj` is the scalar-field interface fact that the
distinct `u32` indices of `L` map to distinct field elements (true of
`jubjub::Fr`); `hdecP`/`hdecF` are the encoding round-trips of the external
jubjub serialization. -/
theorem claim_C1_frost_sign_aggregate_verify
    (B : P) (hstar : List ℕ → F) (encP : P → List ℕ) (encF : F → List ℕ)
    (decP : List ℕ → Option P) (decF : List ℕ → Option F)
    (hdecP : ∀ X : P, decP (encP X) = some X)
    (hdecF : ∀ x : F, decF (encF x) = some x)
    (secret : F) (n t : ℕ) (coefficients : List F)
    (hclen : coefficients.length = t - 1) (ht : 1 ≤ t) (htn : t ≤ n)
    (sps : List (SharePackage F P)) (pkp : PublicKeyPackage P)
    (hkg : keygen_with_dealer B encP secret n t coefficients = Except.ok (sps, pkp))
    (L : List ℕ) (hLnd : L.Nodup) (hLlen : L.length = t)
    (hLb : ∀ i ∈ L, 1 ≤ i ∧ i ≤ n)
    (hinj : ∀ a ∈ L, ∀ b ∈ L, ((a : ℕ) : F) = ((b : ℕ) : F) → a = b)
    (d e : ℕ → F) (msg : List ℕ) :
    ∃ z : ℕ → F,
      (∀ sp ∈ sps, sp.index ∈ L →
        sign hstar encP encF
          { message := msg
            signing_commitments := L.map (fun j =>
              { index := j, «hiding» := d j • B, binding := e j • B }) }
          (d sp.index, e sp.index) sp
          = Except.ok { index := sp.index, signature := z sp.index })
      ∧ ∃ sig : Sig,
          aggregate B hstar encP encF
            { message := msg
              signing_commitments := L.map (fun j =>
                { index := j, «hiding» := d j • B, binding := e j • B }) }
            (L.map (fun i => { index := i, signature := z i })) pkp
            = Except.ok sig
          ∧ verify B hstar decP decF pkp.group_public msg sig = Except.ok () := by
  -- Invert the dealer key generation.
  have hgen : generate_shares B secret n t coefficients
      = Except.ok ((List.range n).map (fun k =>
          ({ receiver_index := k + 1
             value := polyEval secret coefficients ((k + 1 : ℕ) : F)
             commitment := secret • B :: coefficients.map (fun c => c • B) } : Share F P))) := by
    unfold generate_shares
    rw [if_neg (by omega), if_neg (by omega), if_neg (by omega)]
  have hkg2 := hkg
  unfold keygen_with_dealer at hkg2
  rw [hgen] at hkg2
  injection hkg2 with hpair
  rw [Prod.mk.injEq] at hpair
  obtain ⟨hsps, hpkp⟩ := hpair
  subst hsps
  subst hpkp
  set pkg : SigningPackage P :=
    { message := msg
      signing_commitments := L.map (fun j =>
        { index := j, «hiding» := d j • B, binding := e j • B }) } with hpkg
  set rho : ℕ → F := fun i => gen_rho_i hstar encP encF i pkg with hrho
  set gp : VKey P := vkeyFromScalar B encP secret with hgp
  -- The bindings map is defined on every index of `L`.
  have hbind : ∀ i ∈ L, mkBindings hstar encP encF pkg i = some (rho i) := by
    intro i hi
    unfold mkBindings
    rw [if_pos]
    rw [hpkg]
    dsimp only
    rw [List.any_eq_true]
    exact ⟨_, List.mem_map_of_mem _ hi, by simp⟩
  have hidxmap : pkg.signing_commitments.map (fun c => c.index) = L := by
    rw [hpkg]
    dsimp only
    rw [List.map_map]
    exact List.map_id L
  -- The group commitment is `K • B`.
  set K : F := (L.map (fun j => d j + e j * rho j)).sum with hK
  have hggc : gen_group_commitment pkg (mkBindings hstar encP encF pkg)
      = Except.ok (K • B) := by
    rw [gen_group_commitment_eq pkg rho (mkBindings hstar encP encF pkg) ?hb]
    case hb =>
      intro c hc
      apply hbind
      rw [← hidxmap]
      exact List.mem_map_of_mem _ hc
    congr 1
    rw [hpkg]
    dsimp only
    rw [List.map_map]
    rw [show ((fun c : SigningCommitments P => c.hiding + rho c.index • c.binding) ∘
        (fun j => ({ index := j, «hiding» := d j • B, binding := e j • B }
          : SigningCommitments P)))
      = fun j => (d j + e j * rho j) • B from ?_, list_sum_smul]
    funext j
    show d j • B + rho j • e j • B = (d j + e j * rho j) • B
    rw [smul_smul, add_smul, mul_comm (e j) (rho j)]
  -- The Lagrange coefficients computed by sign/aggregate.
  set lagL : ℕ → F := fun i =>
    (L.map (fun j => if j = i then 1 else ((j : ℕ) : F))).prod
      * ((L.map (fun j => if j = i then 1 else ((j : ℕ) : F) - ((i : ℕ) : F))).prod)⁻¹
    with hlagL
  have hden : ∀ i ∈ L,
      (L.map (fun j => if j = i then 1 else ((j : ℕ) : F) - ((i : ℕ) : F))).prod ≠ 0 := by
    intro i hi
    apply List.prod_ne_zero
    intro hmem
    obtain ⟨j, hj, hj0⟩ := List.mem_map.mp hmem
    by_cases hji : j = i
    · rw [if_pos hji] at hj0
      exact one_ne_zero hj0
    · rw [if_neg hji] at hj0
      exact hji (hinj j hj i hi (sub_eq_zero.mp hj0))
  have hlag : ∀ i ∈ L, gen_lagrange_coeff i pkg = Except.ok (lagL i) := by
    intro i hi
    rw [gen_lagrange_coeff_eq pkg i, hidxmap, if_neg (hden i hi)]
  set chall : F := gen_challenge hstar encP pkg (K • B) gp with hchall
  set z : ℕ → F := fun i =>
    d i + e i * rho i + lagL i * polyEval secret coefficients ((i : ℕ) : F) * chall
    with hz
  refine ⟨z, ?_, ?_⟩
  · -- Each selected participant's sign call succeeds with share z i.
    intro sp hsp hspL
    obtain ⟨share, hshare, rfl⟩ := List.mem_map.mp hsp
    obtain ⟨k, hk, rfl⟩ := List.mem_map.mp hshare
    dsimp only at hspL ⊢
    unfold sign
    rw [hlag _ hspL, hggc, hbind _ hspL]
  · -- Aggregation and verification.
    have hzsum : (L.map z).sum = K + secret * chall := by
      rw [hz]
      rw [list_sum_map_add L (fun i => d i + e i * rho i)
        (fun i => lagL i * polyEval secret coefficients ((i : ℕ) : F) * chall)]
      rw [list_sum_map_mul_right L
        (fun i => lagL i * polyEval secret coefficients ((i : ℕ) : F)) chall]
      rw [← hK]
      congr 1
      rw [show (L.map (fun i => lagL i * polyEval secret coefficients ((i : ℕ) : F))).sum
          = secret from ?_, mul_comm]
      rw [hlagL]
      dsimp only
      exact list_lagrange_sum L hLnd hinj secret coefficients (by omega)
    refine ⟨{ r_bytes := encP (K • B), s_bytes := encF ((L.map z).sum) }, ?_, ?_⟩
    · unfold aggregate
      rw [hggc]
      dsimp only
      rw [forM_ok _ _ ?hfa]
      case hfa =>
        intro ss hss
        obtain ⟨i, hi, rfl⟩ := List.mem_map.mp hss
        -- signer_pubkeys lookup
        have hfind : ∃ a, ((List.range n).map (fun k =>
            ({ receiver_index := k + 1
               value := polyEval secret coefficients ((k + 1 : ℕ) : F)
               commitment := secret • B :: coefficients.map (fun c => c • B) } : Share F P))).find?
              (fun s => s.receiver_index == i) = some a := by
          rw [← Option.isSome_iff_exists, List.find?_isSome]
          refine ⟨{ receiver_index := i
                    value := polyEval secret coefficients ((i : ℕ) : F)
                    commitment := secret • B :: coefficients.map (fun c => c • B) }, ?_, by simp⟩
          rw [List.mem_map]
          refine ⟨i - 1, List.mem_range.mpr ?_, ?_⟩
          · have := hLb i hi
            omega
          · have h1 : i - 1 + 1 = i := by have := hLb i hi; omega
            rw [h1]
        obtain ⟨a, ha⟩ := hfind
        have haidx : a.receiver_index = i := by
          have := List.find?_some ha
          simpa using this
        have haval : a.value = polyEval secret coefficients ((i : ℕ) : F) := by
          have hmem := List.mem_of_find?_eq_some ha
          obtain ⟨k, hk, rfl⟩ := List.mem_map.mp hmem
          dsimp only at haidx ⊢
          rw [haidx]
        rw [ha, Option.map_some']
        dsimp only
        rw [hlag i hi]
        -- the matching signing commitment
        have hcfind : pkg.signing_commitments.find?
            (fun c => c.index == i)
            = some { index := i, «hiding» := d i • B, binding := e i • B } := by
          have hex : ∃ c, pkg.signing_commitments.find? (fun c => c.index == i) = some c := by
            rw [← Option.isSome_iff_exists, List.find?_isSome]
            exact ⟨{ index := i, «hiding» := d i • B, binding := e i • B },
              by rw [hpkg]; exact List.mem_map_of_mem _ hi, by simp⟩
          obtain ⟨c, hc⟩ := hex
          have hcidx : c.index = i := by simpa using List.find?_some hc
          have hcmem := List.mem_of_find?_eq_some hc
          rw [hpkg] at hcmem
          obtain ⟨j, hj, rfl⟩ := List.mem_map.mp hcmem
          dsimp only at hcidx
          rw [hc, hcidx]
        rw [hcfind]
        dsimp only
        rw [hbind i hi]
        have hcv : z i • B
            = d i • B + rho i • e i • B
              + lagL i • gen_challenge hstar encP pkg (K • B) gp
                • polyEval secret coefficients ((i : ℕ) : F) • B := by
          rw [hz]
          dsimp only
          rw [smul_smul, smul_smul, smul_smul, add_smul, add_smul, ← hchall,
            mul_right_comm, mul_comm (e i) (rho i)]
        unfold check_is_valid
        dsimp only
        rw [haval, if_pos hcv]
      show Except.ok _ = Except.ok _
      congr 2
      rw [foldl_add_sum' (fun ss : SignatureShare F => ss.signature)
        (L.map (fun i => ({ index := i, signature := z i } : SignatureShare F))) 0]
      rw [zero_add, List.map_map]
      rfl
    · refine verify_ok_of B hstar decP decF _ msg _ (K • B) ((L.map z).sum)
        (hdecP _) (hdecF _) ?_
      rw [hzsum]
      have key : (8 : ℕ) • (-((K + secret * chall) • B) + K • B + chall • secret • B)
          = (0 : P) := by
        rw [smul_smul, ← neg_smul, ← add_smul, ← add_smul]
        rw [show -(K + secret * chall) + K + chall * secret = 0 by ring, zero_smul, smul_zero]
      exact key

/-- Witness for C1 at a concrete input: `F = P = ZMod 101`, basepoint 1,
secret 3, polynomial `3 + 5x`, `n = 3`, `t = 2`, signing subset `{1, 3}`,
nonces `(2, 7)`, message `[42]`. -/
theorem claim_C1_witness :
    ∃ z : ℕ → ZMod 101,
      (∀ sp ∈ wSps, sp.index ∈ [1, 3] →
        sign zmodHash zmodEnc zmodEnc
          { message := [42]
            signing_commitments := [1, 3].map (fun j =>
              ({ index := j, «hiding» := (2 : ZMod 101) • (1 : ZMod 101)
                 binding := (7 : ZMod 101) • (1 : ZMod 101) }
                : SigningCommitments (ZMod 101))) }
          (2, 7) sp
          = Except.ok { index := sp.index, signature := z sp.index })
      ∧ ∃ sig : Sig,
          aggregate (1 : ZMod 101) zmodHash zmodEnc zmodEnc
            { message := [42]
              signing_commitments := [1, 3].map (fun j =>
                ({ index := j, «hiding» := (2 : ZMod 101) • (1 : ZMod 101)
                   binding := (7 : ZMod 101) • (1 : ZMod 101) }
                  : SigningCommitments (ZMod 101))) }
            ([1, 3].map (fun i => ({ index := i, signature := z i }
              : SignatureShare (ZMod 101)))) wPkp
            = Except.ok sig
          ∧ verify (1 : ZMod 101) zmodHash zmodDec zmodDec wPkp.group_public [42] sig
            = Except.ok () :=
  claim_C1_frost_sign_aggregate_verify (1 : ZMod 101) zmodHash zmodEnc zmodEnc
    zmodDec zmodDec (by decide) (by decide) 3 3 2 [5] rfl (by decide) (by decide)
    wSps wPkp rfl [1, 3] (by decide) rfl (by decide) (by decide)
    (fun _ => 2) (fun _ => 7) [42]

theorem rho_fold_eq_join (encP : P → List ℕ) (l : List (SigningCommitments P)) :
    ∀ acc : List ℕ,
      l.foldl (fun acc item =>
          acc ++ beBytes32 item.index ++ encP item.hiding ++ encP item.binding) acc
        = acc ++ (l.map (commitChunk encP)).flatten := by
  induction l with
  | nil => intro acc; simp
  | cons x t ih =>
      intro acc
      rw [List.foldl_cons, ih, List.map_cons, List.flatten_cons]
      simp [commitChunk, List.append_assoc]

theorem join_inj_fixed {α : Type} (m : ℕ) (hm : 0 < m) :
    ∀ l1 l2 : List (List α), (∀ x ∈ l1, x.length = m) → (∀ x ∈ l2, x.length = m) →
      l1.flatten = l2.flatten → l1 = l2 := by
  intro l1
  induction l1 with
  | nil =>
      intro l2 _ h2 h
      cases l2 with
      | nil => rfl
      | cons y t2 =>
          exfalso
          have hy : y.length = m := h2 y (List.mem_cons_self y t2)
          simp only [List.flatten_cons, List.flatten_nil] at h
          obtain ⟨hy0, _⟩ := List.append_eq_nil.mp h.symm
          rw [hy0] at hy
          simp at hy
          omega
  | cons x t1 ih =>
      intro l2 h1 h2 h
      cases l2 with
      | nil =>
          exfalso
          have hx : x.length = m := h1 x (List.mem_cons_self x t1)
          simp only [List.flatten_cons, List.flatten_nil] at h
          obtain ⟨hx0, _⟩ := List.append_eq_nil.mp h
          rw [hx0] at hx
          simp at hx
          omega
      | cons y t2 =>
          simp only [List.flatten_cons] at h
          have hx : x.length = m := h1 x (List.mem_cons_self x t1)
          have hy : y.length = m := h2 y (List.mem_cons_self y t2)
          obtain ⟨hxy, hts⟩ := List.append_inj h (by rw [hx, hy])
          have ht := ih t2 (fun z hz => h1 z (List.mem_cons_of_mem x hz))
            (fun z hz => h2 z (List.mem_cons_of_mem y hz)) hts
          rw [hxy, ht]

theorem beBytes32_inj (a b : ℕ) (ha : a < 4294967296) (hb : b < 4294967296)
    (h : beBytes32 a = beBytes32 b) : a = b := by
  simp only [beBytes32, List.cons.injEq, and_true] at h
  omega

theorem commitChunk_length (encP : P → List ℕ) (hlen : ∀ X : P, (encP X).length = 32)
    (c : SigningCommitments P) : (commitChunk encP c).length = 68 := by
  simp [commitChunk, beBytes32, List.length_append, hlen]

theorem commitChunk_inj (encP : P → List ℕ) (hlen : ∀ X : P, (encP X).length = 32)
    (hinj : Function.Injective encP) (c1 c2 : SigningCommitments P)
    (h1 : c1.index < 4294967296) (h2 : c2.index < 4294967296)
    (h : commitChunk encP c1 = commitChunk encP c2) : c1 = c2 := by
  unfold commitChunk at h
  obtain ⟨h01, hb⟩ := List.append_inj h (by simp [beBytes32, List.length_append, hlen])
  obtain ⟨hbe, hh⟩ := List.append_inj h01 (by simp [beBytes32])
  cases c1 with
  | mk i1 hd1 bd1 =>
      cases c2 with
      | mk i2 hd2 bd2 =>
          simp only [SigningCommitments.mk.injEq]
          exact ⟨beBytes32_inj i1 i2 h1 h2 hbe, hinj hh, hinj hb⟩

theorem map_commitChunk_inj (encP : P → List ℕ) (hlen : ∀ X : P, (encP X).length = 32)
    (hinj : Function.Injective encP) :
    ∀ l1 l2 : List (SigningCommitments P),
      (∀ c ∈ l1, c.index < 4294967296) → (∀ c ∈ l2, c.index < 4294967296) →
      l1.map (commitChunk encP) = l2.map (commitChunk encP) → l1 = l2 := by
  intro l1
  induction l1 with
  | nil =>
      intro l2 _ _ h
      cases l2 with
      | nil => rfl
      | cons y t2 => exact absurd h (by simp)
  | cons x t1 ih =>
      intro l2 h1 h2 h
      cases l2 with
      | nil => exact absurd h (by simp)
      | cons y t2 =>
          simp only [List.map_cons, List.cons.injEq] at h
          have hx := commitChunk_inj encP hlen hinj x y
            (h1 x (List.mem_cons_self x t1)) (h2 y (List.mem_cons_self y t2)) h.1
          have ht := ih t2 (fun z hz => h1 z (List.mem_cons_of_mem x hz))
            (fun z hz => h2 z (List.mem_cons_of_mem y hz)) h.2
          rw [hx, ht]

/-- C7: the binding-factor computation does NOT collate commitments by
participant index before hashing: `gen_rho_i` feeds the commitments to the
hasher in the order they are stored in the `SigningPackage`.  Corrected
statement: for two packages with the same message (and injective 32-byte
point encodings, `u32` indices), equal commitment *sequences* do give the
same binding factor, and the hashed preimage is equal precisely when the
commitment sequences are equal — so the same set in a different order
changes the preimage (see the counterexample). -/
theorem claim_C7_binding_factor_order_dependent
    (hstar : List ℕ → F) (encP : P → List ℕ) (encF : F → List ℕ)
    (hlen : ∀ X : P, (encP X).length = 32) (hinj : Function.Injective encP)
    (p1 p2 : SigningPackage P) (hmsg : p1.message = p2.message)
    (hi1 : ∀ c ∈ p1.signing_commitments, c.index < 4294967296)
    (hi2 : ∀ c ∈ p2.signing_commitments, c.index < 4294967296)
    (i : ℕ) :
    (p1.signing_commitments = p2.signing_commitments →
        gen_rho_i hstar encP encF i p1 = gen_rho_i hstar encP encF i p2)
    ∧ (rhoPreimage hstar encP encF i p1 = rhoPreimage hstar encP encF i p2
        ↔ p1.signing_commitments = p2.signing_commitments) := by
  have hdir : p1.signing_commitments = p2.signing_commitments →
      rhoPreimage hstar encP encF i p1 = rhoPreimage hstar encP encF i p2 := by
    intro h
    unfold rhoPreimage
    rw [hmsg, h]
  refine ⟨fun h => by unfold gen_rho_i; rw [hdir h], ?_, hdir⟩
  intro h
  unfold rhoPreimage at h
  rw [hmsg, rho_fold_eq_join, rho_fold_eq_join, List.nil_append, List.nil_append] at h
  have h2 := List.append_cancel_left h
  refine map_commitChunk_inj encP hlen hinj _ _ hi1 hi2 ?_
  refine join_inj_fixed 68 (by norm_num) _ _ ?_ ?_ h2
  · intro x hx
    obtain ⟨c, _, rfl⟩ := List.mem_map.mp hx
    exact commitChunk_length encP hlen c
  · intro x hx
    obtain ⟨c, _, rfl⟩ := List.mem_map.mp hx
    exact commitChunk_length encP hlen c

set_option maxRecDepth 8000 in
/-- C7 witness: the corrected theorem instantiated at the two concrete
packages `wPkgA`/`wPkgB` over `ZMod 101` with the 32-byte encoder. -/
theorem claim_C7_witness :
    ((wPkgA.signing_commitments = wPkgB.signing_commitments →
        gen_rho_i zmodHash zmodEnc32 zmodEnc 1 wPkgA
          = gen_rho_i zmodHash zmodEnc32 zmodEnc 1 wPkgB)
    ∧ (rhoPreimage zmodHash zmodEnc32 zmodEnc 1 wPkgA
          = rhoPreimage zmodHash zmodEnc32 zmodEnc 1 wPkgB
        ↔ wPkgA.signing_commitments = wPkgB.signing_commitments)) :=
  claim_C7_binding_factor_order_dependent zmodHash zmodEnc32 zmodEnc
    (by decide) (by decide) wPkgA wPkgB rfl (by decide) (by decide) 1

/-- C7 counterexample: two packages with the same message and the same
*set* of commitments in different orders get different binding factors
from `gen_rho_i`, refuting the order-invariance stated by the claim. -/
theorem claim_C7_counterexample :
    wPkgA.message = wPkgB.message
    ∧ wPkgA.signing_commitments.Perm wPkgB.signing_commitments
    ∧ gen_rho_i zmodHash zmodEnc zmodEnc 1 wPkgA
        ≠ gen_rho_i zmodHash zmodEnc zmodEnc 1 wPkgB :=
  ⟨rfl, by decide, by decide⟩

theorem nafRec_mem (n : ℕ) : ∀ fuel pos carry, carry ≤ 1 →
    ∀ q ∈ nafRec n fuel pos carry,
      pos ≤ q.1 ∧ q.1 < 256 ∧ q.2 % 2 = 1 ∧ -15 ≤ q.2 ∧ q.2 ≤ 15 ∧ q.2 ≠ 0 := by
  intro fuel
  induction fuel with
  | zero => intro pos carry hc q hq; simp [nafRec] at hq
  | succ fuel ih =>
      intro pos carry hc q hq
      simp only [nafRec] at hq
      by_cases hp : pos < 256
      · rw [if_pos hp] at hq
        have h32 : n / 2 ^ pos % 32 < 32 := Nat.mod_lt _ (by norm_num)
        by_cases he : (carry + n / 2 ^ pos % 32) % 2 = 0
        · rw [if_pos he] at hq
          have h := ih (pos + 1) carry hc q hq
          exact ⟨by omega, h.2⟩
        · rw [if_neg he] at hq
          by_cases hw : carry + n / 2 ^ pos % 32 < 16
          · rw [if_pos hw] at hq
            rcases List.mem_cons.mp hq with rfl | hq2
            · refine ⟨le_refl _, hp, ?_, ?_, ?_, ?_⟩ <;> · dsimp only; omega
            · have h := ih (pos + 5) 0 (by omega) q hq2
              exact ⟨by omega, h.2⟩
          · rw [if_neg hw] at hq
            rcases List.mem_cons.mp hq with rfl | hq2
            · refine ⟨le_refl _, hp, ?_, ?_, ?_, ?_⟩ <;> · dsimp only; omega
            · have h := ih (pos + 5) 1 (by omega) q hq2
              exact ⟨by omega, h.2⟩
      · rw [if_neg hp] at hq; simp at hq

theorem nafRec_pairwise (n : ℕ) : ∀ fuel pos carry, carry ≤ 1 →
    (nafRec n fuel pos carry).Pairwise (fun a b => a.1 < b.1) := by
  intro fuel
  induction fuel with
  | zero => intro pos carry hc; simp [nafRec]
  | succ fuel ih =>
      intro pos carry hc
      simp only [nafRec]
      by_cases hp : pos < 256
      · rw [if_pos hp]
        by_cases he : (carry + n / 2 ^ pos % 32) % 2 = 0
        · rw [if_pos he]; exact ih (pos + 1) carry hc
        · rw [if_neg he]
          by_cases hw : carry + n / 2 ^ pos % 32 < 16
          · rw [if_pos hw]
            refine List.pairwise_cons.mpr ⟨?_, ih (pos + 5) 0 (by omega)⟩
            intro b hb
            have := (nafRec_mem n fuel (pos + 5) 0 (by omega) b hb).1
            dsimp only; omega
          · rw [if_neg hw]
            refine List.pairwise_cons.mpr ⟨?_, ih (pos + 5) 1 (by omega)⟩
            intro b hb
            have := (nafRec_mem n fuel (pos + 5) 1 (by omega) b hb).1
            dsimp only; omega
      · rw [if_neg hp]; simp

theorem nafRec_sum (n : ℕ) (hn : n < 2 ^ 252) :
    ∀ fuel pos carry, 256 ≤ pos + fuel → carry ≤ 1 → (carry = 1 → pos ≤ 253) →
      ((nafRec n fuel pos carry).map (fun q => q.2 * 2 ^ q.1)).sum
        = ((carry + n / 2 ^ pos : ℕ) : ℤ) * 2 ^ pos := by
  intro fuel
  induction fuel with
  | zero =>
      intro pos carry hf hc1 hc2
      have hp : 256 ≤ pos := by omega
      have hcz : carry = 0 := by
        by_contra hne
        have h1 : carry = 1 := by omega
        have := hc2 h1
        omega
      have hdiv : n / 2 ^ pos = 0 :=
        Nat.div_eq_of_lt (lt_of_lt_of_le hn (Nat.pow_le_pow_right (by norm_num) (by omega)))
      simp [nafRec, hcz, hdiv]
  | succ fuel ih =>
      intro pos carry hf hc1 hc2
      simp only [nafRec]
      by_cases hp : pos < 256
      · rw [if_pos hp]
        have h2pos : 0 < 2 ^ pos := Nat.pos_pow_of_pos pos (by norm_num)
        have hq2 : n / 2 ^ (pos + 1) = n / 2 ^ pos / 2 := by
          rw [pow_succ, Nat.div_div_eq_div_mul]
        have hq32 : n / 2 ^ (pos + 5) = n / 2 ^ pos / 32 := by
          rw [pow_add, Nat.div_div_eq_div_mul]; norm_num
        by_cases he : (carry + n / 2 ^ pos % 32) % 2 = 0
        · rw [if_pos he]
          generalize hq : n / 2 ^ pos = q at he ⊢
          have hcp : carry = 1 → pos + 1 ≤ 253 := by
            intro h1
            have hq1 : 1 ≤ q := by omega
            have hle : 2 ^ pos ≤ n := (Nat.one_le_div_iff h2pos).mp (hq ▸ hq1)
            have hplt : pos < 252 :=
              (Nat.pow_lt_pow_iff_right (by norm_num)).mp (lt_of_le_of_lt hle hn)
            omega
          rw [ih (pos + 1) carry (by omega) hc1 hcp, hq2, hq]
          have hs : carry + q = 2 * (carry + q / 2) := by omega
          rw [hs]
          push_cast
          rw [pow_succ]
          ring
        · rw [if_neg he]
          by_cases hw : carry + n / 2 ^ pos % 32 < 16
          · rw [if_pos hw]
            simp only [List.map_cons, List.sum_cons]
            rw [ih (pos + 5) 0 (by omega) (by omega) (by omega), hq32]
            generalize hq : n / 2 ^ pos = q
            have hz : ((carry + q % 32 : ℕ) : ℤ) + 32 * ((0 + q / 32 : ℕ) : ℤ)
                = ((carry + q : ℕ) : ℤ) := by omega
            calc ((carry + q % 32 : ℕ) : ℤ) * 2 ^ pos
                  + ((0 + q / 32 : ℕ) : ℤ) * 2 ^ (pos + 5)
                = (((carry + q % 32 : ℕ) : ℤ)
                    + 32 * ((0 + q / 32 : ℕ) : ℤ)) * 2 ^ pos := by
                  rw [pow_add]; ring
              _ = ((carry + q : ℕ) : ℤ) * 2 ^ pos := by rw [hz]
          · rw [if_neg hw]
            simp only [List.map_cons, List.sum_cons]
            generalize hq : n / 2 ^ pos = q at hw he ⊢
            have hq15 : 15 ≤ q := by omega
            have hcp : pos + 5 ≤ 253 := by
              have hle : 15 * 2 ^ pos ≤ n := (Nat.le_div_iff_mul_le h2pos).mp (hq ▸ hq15)
              have hle8 : 2 ^ (pos + 3) ≤ n := by
                rw [pow_add]
                calc 2 ^ pos * 2 ^ 3 = 8 * 2 ^ pos := by ring
                  _ ≤ 15 * 2 ^ pos := by omega
                  _ ≤ n := hle
              have hplt : pos + 3 < 252 :=
                (Nat.pow_lt_pow_iff_right (by norm_num)).mp (lt_of_le_of_lt hle8 hn)
              omega
            rw [ih (pos + 5) 1 (by omega) (by omega) (fun _ => hcp), hq32, hq]
            have hz : (((carry + q % 32 : ℕ) : ℤ) - 32)
                  + 32 * ((1 + q / 32 : ℕ) : ℤ)
                = ((carry + q : ℕ) : ℤ) := by omega
            calc (((carry + q % 32 : ℕ) : ℤ) - 32) * 2 ^ pos
                  + ((1 + q / 32 : ℕ) : ℤ) * 2 ^ (pos + 5)
                = ((((carry + q % 32 : ℕ) : ℤ) - 32)
                    + 32 * ((1 + q / 32 : ℕ) : ℤ)) * 2 ^ pos := by
                  rw [pow_add]; ring
              _ = ((carry + q : ℕ) : ℤ) * 2 ^ pos := by rw [hz]
      · rw [if_neg hp]
        have hcz : carry = 0 := by
          by_contra hne
          have h1 : carry = 1 := by omega
          have := hc2 h1
          omega
        have hdiv : n / 2 ^ pos = 0 :=
          Nat.div_eq_of_lt (lt_of_lt_of_le hn (Nat.pow_le_pow_right (by norm_num) (by omega)))
        simp [hcz, hdiv]

theorem nafAt_cons (x : ℕ × ℤ) (t : List (ℕ × ℤ)) (i : ℕ) :
    nafAt (x :: t) i = if x.1 = i then x.2 else nafAt t i := by
  unfold nafAt
  rcases eq_or_ne x.1 i with h | h
  · rw [if_pos h, List.find?_cons_of_pos _ (by simp [h])]
    rfl
  · rw [if_neg h, List.find?_cons_of_neg _ (by simp [h])]

theorem nafAt_eq_zero_of_not_mem (l : List (ℕ × ℤ)) (i : ℕ)
    (h : i ∉ l.map Prod.fst) : nafAt l i = 0 := by
  unfold nafAt
  rw [List.find?_eq_none.mpr]
  · rfl
  · intro q hq
    simp only [beq_iff_eq]
    intro hqi
    exact h (hqi ▸ List.mem_map_of_mem Prod.fst hq)

theorem nafAt_eq_zero_or_mem (l : List (ℕ × ℤ)) (i : ℕ) :
    nafAt l i = 0 ∨ (i, nafAt l i) ∈ l := by
  unfold nafAt
  cases hf : l.find? (fun p => p.1 == i) with
  | none => left; rfl
  | some q =>
      right
      have hmem := List.mem_of_find?_eq_some hf
      have hpq : q.1 = i := by
        have := List.find?_some hf
        simpa using this
      simpa [Option.map_some, Option.getD_some, ← hpq] using hmem

theorem sum_nafAt_eq (N : ℕ) : ∀ l : List (ℕ × ℤ), (l.map Prod.fst).Nodup →
    (∀ q ∈ l, q.1 < N) →
    ∑ i in Finset.range N, nafAt l i * 2 ^ i = (l.map (fun q => q.2 * 2 ^ q.1)).sum := by
  intro l
  induction l with
  | nil => intro _ _; simp [nafAt]
  | cons x t ih =>
      intro hnd hlt
      simp only [List.map_cons, List.nodup_cons] at hnd
      have hfind : nafAt t x.1 = 0 := nafAt_eq_zero_of_not_mem t x.1 hnd.1
      have step : ∀ i, nafAt (x :: t) i = nafAt t i + (if x.1 = i then x.2 else 0) := by
        intro i
        rw [nafAt_cons]
        rcases eq_or_ne x.1 i with h | h
        · rw [if_pos h, if_pos h, ← h, hfind, zero_add]
        · rw [if_neg h, if_neg h, add_zero]
      calc ∑ i in Finset.range N, nafAt (x :: t) i * 2 ^ i
          = ∑ i in Finset.range N,
              (nafAt t i * 2 ^ i + (if x.1 = i then x.2 * 2 ^ i else 0)) := by
            refine Finset.sum_congr rfl (fun i _ => ?_)
            rw [step, add_mul, ite_mul, zero_mul]
        _ = (∑ i in Finset.range N, nafAt t i * 2 ^ i)
              + ∑ i in Finset.range N, (if x.1 = i then x.2 * 2 ^ i else 0) :=
            Finset.sum_add_distrib
        _ = (t.map (fun q => q.2 * 2 ^ q.1)).sum + x.2 * 2 ^ x.1 := by
            rw [ih hnd.2 (fun q hq => hlt q (List.mem_cons_of_mem x hq)),
              Finset.sum_ite_eq]
            simp [Finset.mem_range.mpr (hlt x (List.mem_cons_self x t))]
        _ = ((x :: t).map (fun q => q.2 * 2 ^ q.1)).sum := by
            simp only [List.map_cons, List.sum_cons]
            ring

theorem naf_fst_nodup (n : ℕ) : ((non_adjacent_form n).map Prod.fst).Nodup := by
  have hpw := nafRec_pairwise n 256 0 0 (by omega)
  rw [non_adjacent_form]
  exact (List.pairwise_map.mpr (hpw.imp (fun h => Nat.ne_of_lt h)))

theorem naf_expansion (n : ℕ) (hn : n < 2 ^ 252) :
    ∑ i in Finset.range 256, nafAt (non_adjacent_form n) i * 2 ^ i = (n : ℤ) := by
  rw [sum_nafAt_eq 256 _ (naf_fst_nodup n)
    (fun q hq => (nafRec_mem n 256 0 0 (by omega) q hq).2.1)]
  have h := nafRec_sum n hn 256 0 0 (by omega) (by omega) (by omega)
  rw [non_adjacent_form, h]
  simp

theorem lookupRow_getD (A2 : P) : ∀ (k : ℕ) (x : P) (i : ℕ), i ≤ k →
    (lookupRow A2 x k).getD i 0 = i • A2 + x := by
  intro k
  induction k with
  | zero =>
      intro x i hi
      have : i = 0 := Nat.le_zero.mp hi
      subst this
      simp [lookupRow]
  | succ k ih =>
      intro x i hi
      cases i with
      | zero => simp [lookupRow]
      | succ j =>
          show (lookupRow A2 (A2 + x) k).getD j 0 = (j + 1) • A2 + x
          rw [ih (A2 + x) j (by omega), succ_nsmul]
          abel

theorem tableSelect_odd (A : P) (x : ℕ) (h2 : x % 2 = 1) (hx : x < 16) :
    tableSelect (lookupTable5 A) x = x • A := by
  unfold tableSelect lookupTable5
  rw [lookupRow_getD (A + A) 7 A (x / 2) (by omega)]
  have hA2 : A + A = 2 • A := (two_nsmul A).symm
  rw [hA2, ← mul_nsmul]
  rw [← succ_nsmul]
  have hx2 : 2 * (x / 2) + 1 = x := by omega
  rw [hx2]

theorem foldl_body_add {α M : Type} [AddCommMonoid M] (f : M → α → M) (g : α → M)
    (l : List α) (hf : ∀ x ∈ l, ∀ t, f t x = t + g x) :
    ∀ init, l.foldl f init = init + (l.map g).sum := by
  induction l with
  | nil => intro init; simp
  | cons x t ih =>
      intro init
      rw [List.foldl_cons, hf x (List.mem_cons_self x t),
        ih (fun y hy t0 => hf y (List.mem_cons_of_mem x hy) t0),
        List.map_cons, List.sum_cons, add_assoc]

theorem msmStep_eq (val : F → ℕ) (cs : List F) (ps : List P) (i : ℕ) (r : P) :
    msmStep (cs.map (fun c => non_adjacent_form (val c)))
        (ps.map (fun A => lookupTable5 A)) i r
      = (r + r) + ((cs.zip ps).map
          (fun x => nafAt (non_adjacent_form (val x.1)) i • x.2)).sum := by
  unfold msmStep
  rw [List.zip_map, List.foldl_map]
  refine foldl_body_add _ _ _ ?_ (r + r)
  intro x hx t
  dsimp only [Prod.map]
  rcases nafAt_eq_zero_or_mem (non_adjacent_form (val x.1)) i with h0 | hm
  · rw [h0]
    norm_num
  · have hprops := nafRec_mem (val x.1) 256 0 0 (by omega)
      (i, nafAt (non_adjacent_form (val x.1)) i) hm
    obtain ⟨-, -, hodd, hlo, hhi, hne⟩ := hprops
    dsimp only at hodd hlo hhi hne
    rcases lt_trichotomy (nafAt (non_adjacent_form (val x.1)) i) 0 with hneg | h0 | hpos
    · rw [if_neg (by omega), if_pos hneg]
      rw [tableSelect_odd _ _ (by omega) (by omega)]
      have hcast : (((-nafAt (non_adjacent_form (val x.1)) i).toNat : ℤ))
          = -nafAt (non_adjacent_form (val x.1)) i := Int.toNat_of_nonneg (by omega)
      rw [sub_eq_add_neg]
      congr 1
      rw [← natCast_zsmul, hcast, neg_zsmul, neg_neg]
    · exact absurd h0 hne
    · rw [if_pos hpos]
      rw [tableSelect_odd _ _ (by omega) (by omega)]
      congr 1
      rw [← natCast_zsmul, Int.toNat_of_nonneg (by omega)]

theorem list_sum_map_add_pt {α M : Type} [AddCommMonoid M] (l : List α) (f g : α → M) :
    (l.map (fun x => f x + g x)).sum = (l.map f).sum + (l.map g).sum := by
  induction l with
  | nil => simp
  | cons x t ih =>
      simp only [List.map_cons, List.sum_cons, ih]
      abel

theorem msmLoop_eq (val : F → ℕ) (cs : List F) (ps : List P) :
    ∀ (k : ℕ) (r : P),
      msmLoop (cs.map (fun c => non_adjacent_form (val c)))
          (ps.map (fun A => lookupTable5 A)) k r
        = (2 ^ k : ℕ) • r + ((cs.zip ps).map
            (fun x => (∑ i in Finset.range k,
              nafAt (non_adjacent_form (val x.1)) i * 2 ^ i) • x.2)).sum := by
  intro k
  induction k with
  | zero =>
      intro r
      simp [msmLoop]
  | succ k ih =>
      intro r
      show msmLoop _ _ k (msmStep _ _ k r) = _
      rw [ih (msmStep (cs.map (fun c => non_adjacent_form (val c)))
        (ps.map (fun A => lookupTable5 A)) k r), msmStep_eq, smul_add, smul_add]
      have hr : (2 ^ k : ℕ) • r + (2 ^ k : ℕ) • r = (2 ^ (k + 1) : ℕ) • r := by
        rw [← add_nsmul]
        congr 1
        rw [pow_succ]
        ring
      have hfun : ∀ x : F × P,
          (2 ^ k : ℕ) • (nafAt (non_adjacent_form (val x.1)) k • x.2)
            = (nafAt (non_adjacent_form (val x.1)) k * 2 ^ k) • x.2 := by
        intro x
        rw [(natCast_zsmul (nafAt (non_adjacent_form (val x.1)) k • x.2) (2 ^ k)).symm,
          smul_smul]
        congr 1
        push_cast
        ring
      have hmap : (2 ^ k : ℕ) • ((cs.zip ps).map
            (fun x => nafAt (non_adjacent_form (val x.1)) k • x.2)).sum
          = ((cs.zip ps).map
            (fun x => (nafAt (non_adjacent_form (val x.1)) k * 2 ^ k) • x.2)).sum := by
        rw [List.smul_sum, List.map_map]
        exact congrArg List.sum (List.map_congr_left (fun x _ => hfun x))
      have hsplit : ((cs.zip ps).map
            (fun x => (∑ i in Finset.range (k + 1),
              nafAt (non_adjacent_form (val x.1)) i * 2 ^ i) • x.2)).sum
          = ((cs.zip ps).map
              (fun x => (∑ i in Finset.range k,
                nafAt (non_adjacent_form (val x.1)) i * 2 ^ i) • x.2)).sum
            + ((cs.zip ps).map
              (fun x => (nafAt (non_adjacent_form (val x.1)) k * 2 ^ k) • x.2)).sum := by
        rw [← list_sum_map_add_pt]
        refine congrArg List.sum (List.map_congr_left (fun x _ => ?_))
        rw [Finset.sum_range_succ, add_smul]
      rw [hsplit, hmap, ← hr]
      abel

theorem sequenceOpt_map_some {α : Type} :
    ∀ l : List α, sequenceOpt (l.map some) = some l := by
  intro l
  induction l with
  | nil => rfl
  | cons x t ih => simp [sequenceOpt, ih]

theorem vartime_msm_eq (val : F → ℕ) (hval : ∀ c : F, ((val c : ℕ) : F) = c)
    (hlt : ∀ c : F, val c < 2 ^ 252) (scalars : List F) (points : List P) :
    vartime_multiscalar_mul val scalars points
      = ((scalars.zip points).map (fun x => x.1 • x.2)).sum := by
  unfold vartime_multiscalar_mul optional_multiscalar_mul
  have hmaps : (points.map some).map (fun p => p.map (fun A => lookupTable5 A))
      = (points.map (fun A => lookupTable5 A)).map some := by
    rw [List.map_map, List.map_map]
    rfl
  rw [hmaps, sequenceOpt_map_some]
  dsimp only
  rw [Option.getD_some, msmLoop_eq, smul_zero, zero_add]
  refine congrArg List.sum (List.map_congr_left (fun x _ => ?_))
  rw [naf_expansion (val x.1) (hlt x.1), natCast_zsmul,
    ← Nat.cast_smul_eq_nsmul F (val x.1) x.2, hval x.1]

/-- C9: the optimised multi-scalar multiplication of batch.rs equals the
naive sum of scalar multiples, and `non_adjacent_form(5)` produces a
256-position digit array whose entries are odd and in `[-15, 15]` when
non-zero and whose signed-binary expansion recovers the canonical integer
value of the scalar (`val`, with the scalar field smaller than `2^252`). -/
theorem claim_C9_msm_equals_naive_sum
    (val : F → ℕ) (hval : ∀ c : F, ((val c : ℕ) : F) = c)
    (hlt : ∀ c : F, val c < 2 ^ 252)
    (scalars : List F) (points : List P) (_hlen : scalars.length = points.length) :
    vartime_multiscalar_mul val scalars points
        = ((scalars.zip points).map (fun x => x.1 • x.2)).sum
    ∧ ∀ c : F,
        (∀ i : ℕ,
          (nafAt (non_adjacent_form (val c)) i ≠ 0 →
            nafAt (non_adjacent_form (val c)) i % 2 = 1)
          ∧ -15 ≤ nafAt (non_adjacent_form (val c)) i
          ∧ nafAt (non_adjacent_form (val c)) i ≤ 15
          ∧ (256 ≤ i → nafAt (non_adjacent_form (val c)) i = 0))
        ∧ ∑ i in Finset.range 256, nafAt (non_adjacent_form (val c)) i * 2 ^ i
            = (val c : ℤ) := by
  refine ⟨vartime_msm_eq val hval hlt scalars points,
    fun c => ⟨fun i => ?_, naf_expansion (val c) (hlt c)⟩⟩
  rcases nafAt_eq_zero_or_mem (non_adjacent_form (val c)) i with h0 | hm
  · rw [h0]
    exact ⟨fun hne => absurd rfl hne, by norm_num, by norm_num, fun _ => rfl⟩
  · have hprops := nafRec_mem (val c) 256 0 0 (by omega)
      (i, nafAt (non_adjacent_form (val c)) i) hm
    obtain ⟨-, hi256, hodd, hlo, hhi, -⟩ := hprops
    dsimp only at hi256 hodd hlo hhi
    exact ⟨fun _ => hodd, hlo, hhi, fun h256 => absurd hi256 (by omega)⟩

/-- C9 witness: the theorem instantiated over `ZMod 101` (acting on
itself) with its canonical value function, one scalar and one point. -/
theorem claim_C9_witness :
    (vartime_multiscalar_mul ZMod.val ([2] : List (ZMod 101)) ([3] : List (ZMod 101))
        = ((([2] : List (ZMod 101)).zip ([3] : List (ZMod 101))).map
            (fun x => x.1 • x.2)).sum)
    ∧ ∀ c : ZMod 101,
        (∀ i : ℕ,
          (nafAt (non_adjacent_form (ZMod.val c)) i ≠ 0 →
            nafAt (non_adjacent_form (ZMod.val c)) i % 2 = 1)
          ∧ -15 ≤ nafAt (non_adjacent_form (ZMod.val c)) i
          ∧ nafAt (non_adjacent_form (ZMod.val c)) i ≤ 15
          ∧ (256 ≤ i → nafAt (non_adjacent_form (ZMod.val c)) i = 0))
        ∧ ∑ i in Finset.range 256, nafAt (non_adjacent_form (ZMod.val c)) i * 2 ^ i
            = (ZMod.val c : ℤ) :=
  claim_C9_msm_equals_naive_sum (ZMod.val : ZMod 101 → ℕ) (by decide)
    (fun c => lt_of_lt_of_le (ZMod.val_lt c) (by norm_num))
    ([2] : List (ZMod 101)) ([3] : List (ZMod 101)) rfl

theorem verify_inv (B : P) (hstar : List ℕ → F) (decP : List ℕ → Option P)
    (decF : List ℕ → Option F) (vk : VKey P) (msg : List ℕ) (sig : Sig)
    (h : verify B hstar decP decF vk msg sig = Except.ok ()) :
    ∃ R s, decP sig.r_bytes = some R ∧ decF sig.s_bytes = some s ∧
      (8 : ℕ) • (-(s • B) + R + hstar (sig.r_bytes ++ vk.bytes ++ msg) • vk.point) = 0 := by
  unfold verify at h
  split at h
  · exact absurd h (by simp)
  · rename_i R hR
    split at h
    · exact absurd h (by simp)
    · rename_i s hs
      split at h
      · rename_i hc
        exact ⟨R, s, hR, hs, hc⟩
      · exact absurd h (by simp)

theorem smul_comm_nat_field (a : F) (x : P) :
    (8 : ℕ) • (a • x) = a • ((8 : ℕ) • x) := smul_comm _ _ _

theorem sigsLoop_ok (B : P) (decP : List ℕ → Option P) (decF : List ℕ → Option F)
    (z : ℕ → F) (pt C : P) :
    ∀ (sigs : List (F × Sig)) (pc vkc : F) (rcs : List F) (rs : List P) (ctr : ℕ),
      (∀ cs ∈ sigs, ∃ R s, decP cs.2.r_bytes = some R ∧ decF cs.2.s_bytes = some s ∧
          (8 : ℕ) • (-(s • B) + R + cs.1 • pt) = 0) →
      rcs.length = rs.length →
      (8 : ℕ) • (C + pc • B + vkc • pt + ((rcs.zip rs).map (fun x => x.1 • x.2)).sum) = 0 →
      ∃ pc2 vkc2 rcs2 rs2 ctr2,
        sigsLoop decP decF z sigs (pc, vkc, rcs, rs, ctr)
            = Except.ok (pc2, vkc2, rcs2, rs2, ctr2)
        ∧ rcs2.length = rs2.length
        ∧ (8 : ℕ) • (C + pc2 • B + vkc2 • pt
            + ((rcs2.zip rs2).map (fun x => x.1 • x.2)).sum) = 0 := by
  intro sigs
  induction sigs with
  | nil =>
      intro pc vkc rcs rs ctr hv hlen hQ
      exact ⟨pc, vkc, rcs, rs, ctr, rfl, hlen, hQ⟩
  | cons cs rest ih =>
      intro pc vkc rcs rs ctr hv hlen hQ
      obtain ⟨R, s, hR, hs, hT⟩ := hv cs (List.mem_cons_self cs rest)
      have hstep : sigsLoop decP decF z (cs :: rest) (pc, vkc, rcs, rs, ctr)
          = sigsLoop decP decF z rest
              (pc - z ctr * s, vkc + z ctr * cs.1,
                rcs ++ [z ctr], rs ++ [R], ctr + 1) := by
        simp only [sigsLoop, hR, hs]
      rw [hstep]
      refine ih _ _ _ _ _ (fun y hy => hv y (List.mem_cons_of_mem cs hy))
        (by simp [hlen]) ?_
      rw [List.zip_append hlen, List.map_append, List.sum_append]
      have hone : (([z ctr].zip [R]).map (fun x => x.1 • x.2)).sum = z ctr • R := by
        simp
      rw [hone]
      have hsplit : C + (pc - z ctr * s) • B + (vkc + z ctr * cs.1) • pt
            + (((rcs.zip rs).map (fun x => x.1 • x.2)).sum + z ctr • R)
          = (C + pc • B + vkc • pt + ((rcs.zip rs).map (fun x => x.1 • x.2)).sum)
            + z ctr • (-(s • B) + R + cs.1 • pt) := by
        rw [sub_smul, add_smul, mul_smul, mul_smul, smul_add, smul_add, smul_neg]
        abel
      rw [hsplit, smul_add, hQ, zero_add, smul_comm_nat_field, hT, smul_zero]

theorem groupsLoop_ok (B : P) (decP : List ℕ → Option P) (decF : List ℕ → Option F)
    (tryVK : List ℕ → Option P) (z : ℕ → F) :
    ∀ (groups : List (List ℕ × List (F × Sig))) (pc : F) (vkcs : List F)
      (vks : List P) (rcs : List F) (rs : List P) (ctr : ℕ),
      (∀ g ∈ groups, ∃ pt, tryVK g.1 = some pt ∧
          ∀ cs ∈ g.2, ∃ R s, decP cs.2.r_bytes = some R ∧ decF cs.2.s_bytes = some s ∧
            (8 : ℕ) • (-(s • B) + R + cs.1 • pt) = 0) →
      vkcs.length = vks.length →
      rcs.length = rs.length →
      (8 : ℕ) • (pc • B + ((vkcs.zip vks).map (fun x => x.1 • x.2)).sum
          + ((rcs.zip rs).map (fun x => x.1 • x.2)).sum) = 0 →
      ∃ pc2 vkcs2 vks2 rcs2 rs2 ctr2,
        groupsLoop decP decF tryVK z groups (pc, vkcs, vks, rcs, rs, ctr)
            = some (Except.ok (pc2, vkcs2, vks2, rcs2, rs2, ctr2))
        ∧ vkcs2.length = vks2.length
        ∧ rcs2.length = rs2.length
        ∧ (8 : ℕ) • (pc2 • B + ((vkcs2.zip vks2).map (fun x => x.1 • x.2)).sum
            + ((rcs2.zip rs2).map (fun x => x.1 • x.2)).sum) = 0 := by
  intro groups
  induction groups with
  | nil =>
      intro pc vkcs vks rcs rs ctr hv hl1 hl2 hQ
      exact ⟨pc, vkcs, vks, rcs, rs, ctr, rfl, hl1, hl2, hQ⟩
  | cons grp rest ih =>
      intro pc vkcs vks rcs rs ctr hv hl1 hl2 hQ
      obtain ⟨pt, hpt, hsigs⟩ := hv grp (List.mem_cons_self grp rest)
      have hinner := sigsLoop_ok B decP decF z pt
        (((vkcs.zip vks).map (fun x => x.1 • x.2)).sum) grp.2 pc 0 rcs rs ctr hsigs hl2
        (by rw [zero_smul, add_zero]
            have : ((vkcs.zip vks).map (fun x => x.1 • x.2)).sum + pc • B
                + ((rcs.zip rs).map (fun x => x.1 • x.2)).sum
              = pc • B + ((vkcs.zip vks).map (fun x => x.1 • x.2)).sum
                + ((rcs.zip rs).map (fun x => x.1 • x.2)).sum := by abel
            rw [this]
            exact hQ)
      obtain ⟨pc2, vkc2, rcs2, rs2, ctr2, hrun, hlen2, hQ2⟩ := hinner
      have hstep : groupsLoop decP decF tryVK z (grp :: rest) (pc, vkcs, vks, rcs, rs, ctr)
          = groupsLoop decP decF tryVK z rest
              (pc2, vkcs ++ [vkc2], vks ++ [pt], rcs2, rs2, ctr2) := by
        simp only [groupsLoop, hpt, hrun]
      rw [hstep]
      refine ih pc2 (vkcs ++ [vkc2]) (vks ++ [pt]) rcs2 rs2 ctr2
        (fun y hy => hv y (List.mem_cons_of_mem grp hy)) (by simp [hl1]) hlen2 ?_
      rw [List.zip_append hl1, List.map_append, List.sum_append]
      have hone : (([vkc2].zip [pt]).map (fun x => x.1 • x.2)).sum = vkc2 • pt := by
        simp
      rw [hone]
      have hre : pc2 • B + (((vkcs.zip vks).map (fun x => x.1 • x.2)).sum + vkc2 • pt)
            + ((rcs2.zip rs2).map (fun x => x.1 • x.2)).sum
          = ((vkcs.zip vks).map (fun x => x.1 • x.2)).sum + pc2 • B + vkc2 • pt
            + ((rcs2.zip rs2).map (fun x => x.1 • x.2)).sum := by abel
      rw [hre]
      exact hQ2

/-- C2: a batch consisting only of individually valid items verifies:
if every queued group decodes to a verification key under `tryVK` and
every stored `(c, sig)` pair came from a message on which single
verification succeeds, then `Verifier::verify` accepts for every stream
of randomizers `z`. -/
theorem claim_C2_batch_of_valid_items_verifies
    (B : P) (hstar : List ℕ → F) (decP : List ℕ → Option P) (decF : List ℕ → Option F)
    (tryVK : List ℕ → Option P) (val : F → ℕ)
    (hval : ∀ c : F, ((val c : ℕ) : F) = c) (hlt : ∀ c : F, val c < 2 ^ 252)
    (groups : List (List ℕ × List (F × Sig)))
    (hvalid : ∀ g ∈ groups, ∃ pt, tryVK g.1 = some pt ∧
        ∀ cs ∈ g.2, ∃ msg, cs.1 = hstar (cs.2.r_bytes ++ g.1 ++ msg) ∧
          verify B hstar decP decF { point := pt, bytes := g.1 } msg cs.2 = Except.ok ())
    (z : ℕ → F) :
    batchVerify B decP decF tryVK val groups z = some (Except.ok ()) := by
  have hv : ∀ g ∈ groups, ∃ pt, tryVK g.1 = some pt ∧
      ∀ cs ∈ g.2, ∃ R s, decP cs.2.r_bytes = some R ∧ decF cs.2.s_bytes = some s ∧
        (8 : ℕ) • (-(s • B) + R + cs.1 • pt) = 0 := by
    intro g hg
    obtain ⟨pt, hpt, hsigs⟩ := hvalid g hg
    refine ⟨pt, hpt, fun cs hcs => ?_⟩
    obtain ⟨msg, hc, hver⟩ := hsigs cs hcs
    obtain ⟨R, s, hR, hs, h8⟩ := verify_inv B hstar decP decF _ msg cs.2 hver
    refine ⟨R, s, hR, hs, ?_⟩
    rw [hc]
    exact h8
  obtain ⟨pc2, vkcs2, vks2, rcs2, rs2, ctr2, hrun, hl1, hl2, hQ⟩ :=
    groupsLoop_ok B decP decF tryVK z groups 0 [] [] [] [] 0 hv rfl rfl (by simp)
  unfold batchVerify
  rw [hrun]
  dsimp only
  have hmsm : vartime_multiscalar_mul val (pc2 :: (vkcs2 ++ rcs2)) (B :: (vks2 ++ rs2))
      = pc2 • B + ((vkcs2.zip vks2).map (fun x => x.1 • x.2)).sum
        + ((rcs2.zip rs2).map (fun x => x.1 • x.2)).sum := by
    rw [vartime_msm_eq val hval hlt, List.zip_cons_cons, List.zip_append hl1,
      List.map_cons, List.sum_cons, List.map_append, List.sum_append]
    abel
  have hcond : (8 : ℕ) • vartime_multiscalar_mul val
      (pc2 :: (vkcs2 ++ rcs2)) (B :: (vks2 ++ rs2)) = 0 := by
    rw [hmsm]
    exact hQ
  rw [if_pos hcond]

/-- C2 witness: a concrete one-item batch over `ZMod 101`: key 5,
signature `R = 3`, `s = 10` on message `[7]`, whose challenge hash is
62. -/
theorem claim_C2_witness :
    batchVerify (1 : ZMod 101) zmodDec zmodDec zmodDec ZMod.val
      [([5], [((62 : ZMod 101), { r_bytes := [3], s_bytes := [10] })])]
      (fun _ => 17) = some (Except.ok ()) :=
  claim_C2_batch_of_valid_items_verifies 1 zmodHash zmodDec zmodDec zmodDec ZMod.val
    (by decide) (fun c => lt_of_lt_of_le (ZMod.val_lt c) (by norm_num))
    [([5], [((62 : ZMod 101), { r_bytes := [3], s_bytes := [10] })])]
    (by
      intro g hg
      simp only [List.mem_singleton] at hg
      subst hg
      refine ⟨5, rfl, ?_⟩
      intro cs hcs
      simp only [List.mem_singleton] at hcs
      subst hcs
      exact ⟨[7], by decide, by decide⟩)
    (fun _ => 17)

theorem groupsLoop_isSome (decP : List ℕ → Option P) (decF : List ℕ → Option F)
    (tryVK : List ℕ → Option P) (z : ℕ → F) :
    ∀ (groups : List (List ℕ × List (F × Sig))),
      (∀ g ∈ groups, (tryVK g.1).isSome) →
      ∀ st, (groupsLoop decP decF tryVK z groups st).isSome := by
  intro groups
  induction groups with
  | nil => intro _ st; rfl
  | cons grp rest ih =>
      intro hk st
      obtain ⟨pc, vkcs, vks, rcs, rs, ctr⟩ := st
      have hsome := hk grp (List.mem_cons_self grp rest)
      cases hpt : tryVK grp.1 with
      | none => rw [hpt] at hsome; exact absurd hsome (by simp)
      | some pt =>
          cases hrun : sigsLoop decP decF z grp.2 (pc, 0, rcs, rs, ctr) with
          | error e => simp only [groupsLoop, hpt, hrun]; rfl
          | ok st2 =>
              obtain ⟨pc2, vkc2, rcs2, rs2, ctr2⟩ := st2
              simp only [groupsLoop, hpt, hrun]
              exact ih (fun y hy => hk y (List.mem_cons_of_mem grp hy)) _

/-- C4 (amended): `Verifier::verify` is panic-free on every batch all of
whose queued verification-key byte strings decode: the embedded function
returns `some` result (`Ok` or `Err(InvalidSignature)`).  Without that
proviso the `.unwrap()` on the key decode is reachable: see the
counterexample. -/
theorem claim_C4_batch_no_panic_when_keys_decode
    (B : P) (decP : List ℕ → Option P) (decF : List ℕ → Option F)
    (tryVK : List ℕ → Option P) (val : F → ℕ)
    (groups : List (List ℕ × List (F × Sig))) (z : ℕ → F)
    (hkeys : ∀ g ∈ groups, (tryVK g.1).isSome) :
    (batchVerify B decP decF tryVK val groups z).isSome := by
  unfold batchVerify
  have h := groupsLoop_isSome decP decF tryVK z groups hkeys (0, [], [], [], [], 0)
  cases hg : groupsLoop decP decF tryVK z groups (0, [], [], [], [], 0) with
  | none => rw [hg] at h; exact absurd h (by simp)
  | some res =>
      cases res with
      | error e => rfl
      | ok st =>
          obtain ⟨pc2, vkcs2, vks2, rcs2, rs2, ctr2⟩ := st
          rfl

/-- C4 witness: the amended theorem at a concrete decodable one-item
batch over `ZMod 101`. -/
theorem claim_C4_witness :
    (batchVerify (1 : ZMod 101) zmodDec zmodDec zmodDec ZMod.val
      [([5], [((62 : ZMod 101), { r_bytes := [3], s_bytes := [10] })])]
      (fun _ => 3)).isSome :=
  claim_C4_batch_no_panic_when_keys_decode 1 zmodDec zmodDec zmodDec ZMod.val
    [([5], [((62 : ZMod 101), { r_bytes := [3], s_bytes := [10] })])]
    (fun _ => 3) (by decide)

/-- C4 counterexample: queueing a single `Item` built by `mkItem` whose
verification-key bytes do not decode makes `Verifier::verify` hit the
`.unwrap()` panic (modelled as `none`), refuting the claim that the
unwrap is unreachable for arbitrary queued tuples. -/
theorem claim_C4_counterexample :
    batchVerify (1 : ZMod 101) zmodDec zmodDec zmodDec ZMod.val
      [([], [((mkItem zmodHash [] { r_bytes := [], s_bytes := [] } []).c,
          { r_bytes := [], s_bytes := [] })])] (fun _ => 0) = none := rfl

end RedJubjub
